import Mathlib

/-!
Verification of the easyjson generator core (gen/generator.go).

The Go source is shallowly embedded below.  Go maps are modelled as
insertion-ordered association lists (`List (key × value)`); `reflect.Type`
is modelled by `RType`, a record of the data the generator actually reads
(local name, package path, and the host rendering `String()`), compared by
structural equality, which matches the canonical `reflect.Type` identity of Go
on the fragment used here.  The code-emission collaborators
(`genStructDecoder` &c.) are not part of this file of the repository and
are modelled from the spec as an explicit `Emitters` parameter.
-/

/-- Model of `reflect.Type` as used by the generator: the local name
(`Name()`), the package path (`PkgPath()`) and the host rendering
(`String()`). -/
structure RType where
  name : String
  pkgPath : String
  str : String
deriving DecidableEq

/-- The `Generator` struct of gen/generator.go.  Maps become
insertion-ordered association lists, `bytes.Buffer` becomes `String`. -/
structure GenState where
  out : String
  pkgName : String
  pkgPath : String
  buildTags : String
  varCounter : Nat
  omitEmpty : Bool
  imports : List (String × String)
  marshallers : List RType
  typesSeen : List RType
  typesUnseen : List RType
  functionNames : List (String × RType)
deriving DecidableEq

def pkgWriter : String := "github.com/mailru/easyjson/jwriter"

def pkgLexer : String := "github.com/mailru/easyjson/jlexer"

/-- Embeds `NewGenerator`: the initial state, with the three pre-registered
imports in the order they appear in the source literal. -/
def newGenerator : GenState :=
  { out := "", pkgName := "", pkgPath := "", buildTags := "", varCounter := 0,
    omitEmpty := false,
    imports := [(pkgWriter, "jwriter"), (pkgLexer, "jlexer"), ("encoding/json", "json")],
    marshallers := [], typesSeen := [], typesUnseen := [], functionNames := [] }

/-- Embeds `Generator.addType`: request encoding/decoding functions for a type; a type
already seen or already pending is not enqueued again. -/
def addType (g : GenState) (t : RType) : GenState :=
  if t ∈ g.typesSeen then g
  else if t ∈ g.typesUnseen then g
  else { g with typesUnseen := g.typesUnseen ++ [t] }

/-- Embeds `Generator.Add`: request (un-)marshallers and encoding/decoding functions
for a type (`marshallers[t] = true` is a set insertion). -/
def addTop (g : GenState) (t : RType) : GenState :=
  let g1 := addType g t
  { g1 with marshallers := if t ∈ g1.marshallers then g1.marshallers else g1.marshallers ++ [t] }

/-- A registration call made by the caller before the run: `addType`
(`RequestType`) or `Add` (`RequestTopLevel`). -/
inductive RegOp where
  | req (t : RType)
  | top (t : RType)
deriving DecidableEq

def applyOp (g : GenState) : RegOp → GenState
  | .req t => addType g t
  | .top t => addTop g t

def applyOps (g : GenState) (ops : List RegOp) : GenState :=
  ops.foldl applyOp g

/-- Embeds `safeName`: escape the pkg/type name; unnamed types use the fixed
placeholder `anonymous`; every character outside the letter/digit class
becomes `_`.  (The Go code uses `unicode.IsLetter`/`IsDigit`; on the ASCII
identifiers and paths involved this agrees with `Char.isAlphanum`.) -/
def safeName (t : RType) : String :=
  let nm := if t.name = "" then t.pkgPath ++ "anonymous" else t.pkgPath ++ "." ++ t.name
  String.mk (nm.toList.map (fun c => if c.isAlphanum then c else '_'))

/-- Association-list lookup mirroring a Go map read (first binding wins;
the embedding keeps keys unique). -/
def alookup {α β : Type} [DecidableEq α] : List (α × β) → α → Option β
  | [], _ => none
  | e :: es, k => if e.1 = k then some e.2 else alookup es k

/-- Association-list write mirroring a Go map assignment: update in place
if the key is present, otherwise append. -/
def aset {α β : Type} [DecidableEq α] : List (α × β) → α → β → List (α × β)
  | [], k, v => [(k, v)]
  | e :: es, k, v => if e.1 = k then (k, v) :: es else e :: aset es k v

/-- Embeds `strings.HasPrefix`, character by character. -/
def listHasPfx : List Char → List Char → Bool
  | [], _ => true
  | _ :: _, [] => false
  | c :: cs, d :: ds => c == d && listHasPfx cs ds

/-- Embeds `strings.HasPrefix s p`: does `s` start with `p`? -/
def strHasPfx (s p : String) : Bool := listHasPfx p.data s.data

/-- Fuelled search for the first free suffixed candidate, shared by
`functionName` (names `name1`, `name2`, …) and `pkgAlias` (aliases
`base`, `base1`, …).  The Go loops are unbounded; the registries are
finite, so fuel `size + 1` always suffices (proved below). -/
def mintLoop (isTaken : String → Bool) (cand : Nat → String) : Nat → Nat → Option String
  | 0, _ => none
  | fuel + 1, i => if isTaken (cand i) then mintLoop isTaken cand fuel (i + 1) else some (cand i)

/-- Embeds `Generator.functionName`: return a function name for a type with a
given prefix, tracking assigned names in `functionNames`.  The clash-recovery
scan (`for name1, t1 := range g.functionNames`) is modelled here with the
registry visited in insertion order; `functionNameScan` below is the general
model in which that iteration order — unspecified and randomized per range
statement in Go — is an explicit parameter, and `functionName` is its
instance at insertion order. -/
def functionName (g : GenState) (pfx : String) (t : RType) : String × GenState :=
  let nm := pfx ++ safeName t
  match alookup g.functionNames nm with
  | none => (nm, { g with functionNames := aset g.functionNames nm t })
  | some e =>
    if e = t then (nm, { g with functionNames := aset g.functionNames nm t })
    else
      match g.functionNames.find? (fun en => en.2 == t && strHasPfx en.1 pfx) with
      | some en => (en.1, g)
      | none =>
        let taken := fun s => (alookup g.functionNames s).isSome
        match mintLoop taken (fun i => nm ++ Nat.repr i) (g.functionNames.length + 1) 1 with
        | some fresh => (fresh, { g with functionNames := aset g.functionNames fresh t })
        | none => (nm, g)

/-- Embeds `Generator.functionName` with the iteration order of the
clash-recovery scan made explicit: `scan` is the sequence in which this
particular `for name1, t1 := range g.functionNames` statement visits the
map entries.  Go leaves that order unspecified and randomizes it per
range statement, so an admissible `scan` is any permutation of the
registry; all other map operations in the function are reads or writes
keyed by a single name and do not depend on iteration order. -/
def functionNameScan (scan : List (String × RType)) (g : GenState) (pfx : String)
    (t : RType) : String × GenState :=
  let nm := pfx ++ safeName t
  match alookup g.functionNames nm with
  | none => (nm, { g with functionNames := aset g.functionNames nm t })
  | some e =>
    if e = t then (nm, { g with functionNames := aset g.functionNames nm t })
    else
      match scan.find? (fun en => en.2 == t && strHasPfx en.1 pfx) with
      | some en => (en.1, g)
      | none =>
        let taken := fun s => (alookup g.functionNames s).isSome
        match mintLoop taken (fun i => nm ++ Nat.repr i) (g.functionNames.length + 1) 1 with
        | some fresh => (fresh, { g with functionNames := aset g.functionNames fresh t })
        | none => (nm, g)

/-- Embeds the Go function `path.Base`: last element of the path after stripping trailing
slashes; `"."` for the empty path, `"/"` for all-slash paths. -/
def pathBase (p : String) : String :=
  if p = "" then "."
  else
    let r := p.toList.reverse.dropWhile (fun c => c = '/')
    if r = [] then "/"
    else String.mk (r.takeWhile (fun c => ¬ (c = '/'))).reverse

/-- The candidate alias sequence of `pkgAlias`: the bare last path
segment, then segment1, segment2, … -/
def aliasCand (p : String) (i : Nat) : String :=
  if i = 0 then pathBase p else pathBase p ++ Nat.repr i

/-- Embeds `Generator.pkgAlias`: create and return an import alias for a package
path, recording the winning pair in `imports`. -/
def pkgAlias (g : GenState) (p : String) : String × GenState :=
  let a := (alookup g.imports p).getD ""
  if a ≠ "" then (a, g)
  else
    let vals := g.imports.map Prod.snd
    match mintLoop (fun s => vals.contains s) (aliasCand p) (vals.length + 1) 0 with
    | some fresh => (fresh, { g with imports := g.imports ++ [(p, fresh)] })
    | none => ("", g)

/-- Embeds `Generator.getType`: textual type reference usable in generated
code. -/
def getType (g : GenState) (t : RType) : String × GenState :=
  if t.name = "" ∨ t.pkgPath = "" then (t.str, g)
  else if t.pkgPath = g.pkgPath then (t.name, g)
  else
    let (a, g1) := pkgAlias g t.pkgPath
    (a ++ "." ++ t.name, g1)

def quoteStr (s : String) : String := "\"" ++ s ++ "\""

/-- Embeds `Generator.printHeader`: the lines printed via `fmt.Println` /
`fmt.Printf` — to standard output, not into `g.out`.  The source builds
and sorts an `aliases` slice but then ranges over the `g.imports` map
itself, so the import lines follow map iteration order (here: insertion
order), not the sorted order. -/
def printHeader (g : GenState) : List String :=
  (if g.buildTags ≠ "" then ["// +build  " ++ g.buildTags, ""] else []) ++
  ["package  " ++ g.pkgName, ""] ++
  (let byAlias := g.imports.map (fun pa => (pa.2, pa.1))
   ["import ("] ++
   g.imports.map (fun pa => "  " ++ pa.2 ++ " " ++ quoteStr ((alookup byAlias pa.2).getD "")) ++
   [")", "",
    "var _ = json.RawMessage\x7b\x7d // suppress unused package warning", ""])

/-- The alias order actually printed by `printHeader`, a projection of
the printed import lines. -/
def headerAliases (g : GenState) : List String := g.imports.map Prod.snd

/-- Lexicographic comparison of strings, character by character (the
order `sort.Strings` uses). -/
def strLeb : List Char → List Char → Bool
  | [], _ => true
  | _ :: _, [] => false
  | c :: cs, d :: ds => if c = d then strLeb cs ds else decide (c < d)

/-- The printed alias sequence is in ascending lexicographic order. -/
def aliasesAscending (g : GenState) : Prop :=
  List.Pairwise (fun a b => strLeb a.data b.data = true) (headerAliases g)

/-- Embeds the `camelToSnake` one-character step.  State: output so far, the
`multipleUpper` flag, and the buffered `lastUpper` character (the Go test
`lastUpper != 0` becomes an `Option`). -/
def camelStep : List Char × Bool × Option Char → Char → List Char × Bool × Option Char :=
  fun st c =>
    let ret := st.1
    let multipleUpper := st.2.1
    let lastUpper := st.2.2
    let isUp : Bool := c.isUpper || (lastUpper.isSome && !c.isLower)
    let ret1 :=
      match lastUpper with
      | some lu =>
        let firstInRow := !multipleUpper
        let lastInRow := !isUp
        (if ret.length > 0 && (firstInRow || lastInRow) then ret ++ ['_'] else ret) ++ [lu.toLower]
      | none => ret
    if isUp then (ret1, lastUpper.isSome, some c)
    else (ret1 ++ [c], false, none)

/-- Embeds `camelToSnake`: acronym-aware camelCase to snake_case conversion
(single pass with a buffered uppercase character). -/
def camelToSnake (nm : String) : String :=
  let st := nm.toList.foldl camelStep ([], false, none)
  match st.2.2 with
  | some lu => String.mk (st.1 ++ [lu.toLower])
  | none => String.mk st.1

/-- Embeds `SnakeCaseFieldNamer.GetJSONFieldName`: explicit
tag override (first comma-separated component) wins, else the converted or
verbatim field name. -/
def snakeFieldName (jsonTag : String) (fieldName : String) : String :=
  let jsonName := ((jsonTag.splitOn ",").headD "")
  if jsonName ≠ "" then jsonName else camelToSnake fieldName

/-- Modelled from the spec: the emission collaborators consumed by the
core (`genStructDecoder`, `genStructEncoder`, `genStructMarshaller`,
`genStructUnmarshaller` live in a different file of the repository).
`EmitDecoder`/`EmitEncoder` append codec helper code and may request
newly discovered nested types; `EmitMarshaller`/`EmitUnmarshaller`
append entry-point code; each may fail with an error of type `ε`. -/
structure Emitters (ε : Type) where
  dec : RType → Except ε (List RType × String)
  enc : RType → Except ε (List RType × String)
  mar : RType → Except ε String
  unmar : RType → Except ε String

/-- Observable events of a run: popping a type off the worklist and the
four collaborator invocations. -/
inductive Ev where
  | pop (t : RType)
  | dec (t : RType)
  | enc (t : RType)
  | mar (t : RType)
  | unmar (t : RType)
deriving DecidableEq

/-- Pop the last element of the worklist slice, as
`t := l[len-1]; l = l[:len-1]` does. -/
def popLast : List RType → Option (List RType × RType)
  | [] => none
  | [t] => some ([], t)
  | a :: b :: l =>
    match popLast (b :: l) with
    | some (rest, t) => some (a :: rest, t)
    | none => none

/-- Fold `addType` over a list of discovered types (the `RequestType`
calls a collaborator makes, in order). -/
def addTypes (g : GenState) (ts : List RType) : GenState :=
  ts.foldl addType g

/-- Set insertion on the seen list (`typesSeen[t] = true`). -/
def pushSeen (s : List RType) (t : RType) : List RType :=
  if t ∈ s then s else s ++ [t]

/-- Mark a type seen (`typesSeen[t] = true`). -/
def markSeen (g : GenState) (t : RType) : GenState :=
  { g with typesSeen := pushSeen g.typesSeen t }

/-- The worklist effect of `addType`, at the list level. -/
def addT (seen pending : List RType) (t : RType) : List RType :=
  if t ∈ seen then pending else if t ∈ pending then pending else pending ++ [t]

/-- The worklist effect of a sequence of `addType` calls. -/
def addTs (seen pending : List RType) (l : List RType) : List RType :=
  l.foldl (addT seen) pending

/-- Result of one iteration of the `Run` loop. -/
inductive StepRes (ε : Type) where
  | idle
  | fail (tr : List Ev) (e : ε)
  | next (tr : List Ev) (g : GenState)

/-- One iteration of the `Run` worklist loop: pop the last pending type,
mark it seen, emit its decoder and encoder (which may discover new
types), and, only when the type is in `marshallers`, its marshaller and
unmarshaller.  Any collaborator error stops the iteration at once. -/
def runStep {ε : Type} (em : Emitters ε) (g : GenState) : StepRes ε :=
  match popLast g.typesUnseen with
  | none => .idle
  | some (rest, t) =>
    let g1 := markSeen { g with typesUnseen := rest } t
    match em.dec t with
    | .error e => .fail [.pop t, .dec t] e
    | .ok (ds, ch) =>
      let g2 := { addTypes g1 ds with out := g1.out ++ ch }
      match em.enc t with
      | .error e => .fail [.pop t, .dec t, .enc t] e
      | .ok (es, ch2) =>
        let g3 := { addTypes g2 es with out := g2.out ++ ch2 }
        if t ∈ g3.marshallers then
          match em.mar t with
          | .error e => .fail [.pop t, .dec t, .enc t, .mar t] e
          | .ok mch =>
            match em.unmar t with
            | .error e => .fail [.pop t, .dec t, .enc t, .mar t, .unmar t] e
            | .ok uch =>
              .next [.pop t, .dec t, .enc t, .mar t, .unmar t]
                { g3 with out := g3.out ++ mch ++ uch }
        else .next [.pop t, .dec t, .enc t] g3

/-- Outcome of the whole loop: fixed point reached, first collaborator
error, or fuel exhausted (the Go loop is unbounded; claims about
completed runs take a `done` outcome as hypothesis). -/
inductive LoopRes (ε : Type) where
  | done (g : GenState)
  | fail (e : ε)
  | fuelOut (g : GenState)
deriving DecidableEq

/-- The `for len(g.typesUnseen) > 0` loop of `Generator.Run`, returning
the event trace and the outcome. -/
def runLoop {ε : Type} (em : Emitters ε) : Nat → GenState → List Ev × LoopRes ε
  | 0, g => ([], .fuelOut g)
  | fuel + 1, g =>
    match runStep em g with
    | .idle => ([], .done g)
    | .fail tr e => (tr, .fail e)
    | .next tr g1 =>
      let r := runLoop em fuel g1
      (tr ++ r.1, r.2)

/-- The types popped off the worklist, in order, during a trace. -/
def pops (tr : List Ev) : List RType :=
  tr.filterMap (fun ev => match ev with | .pop t => some t | _ => none)

/-- Observable behaviour of `Generator.Run`: the event trace, the lines
printed to standard output by `printHeader`, the bytes written to the
caller-supplied writer, and the returned error. -/
structure RunOut (ε : Type) where
  events : List Ev
  stdoutLines : List String
  written : String
  errVal : Option ε
deriving DecidableEq

/-- Embeds `Generator.Run`: reset `g.out`, run the loop to the fixed point; on
success print the header (to standard output) and then write `g.out`
(only the accumulated body) to the writer; on error return the error at
once with nothing printed or written. -/
def runG {ε : Type} (em : Emitters ε) (fuel : Nat) (g : GenState) : Option (RunOut ε) :=
  let r := runLoop em fuel { g with out := "" }
  match r.2 with
  | .done gf => some { events := r.1, stdoutLines := printHeader gf, written := gf.out, errVal := none }
  | .fail e => some { events := r.1, stdoutLines := [], written := "", errVal := some e }
  | .fuelOut _ => none

/-- The nested types a collaborator pair discovers for `t` (decoder
requests first, then encoder requests), when emission succeeds. -/
def discovered {ε : Type} (em : Emitters ε) (t : RType) : List RType :=
  (match em.dec t with | .ok p => p.1 | .error _ => []) ++
  (match em.enc t with | .ok p => p.1 | .error _ => [])

/-- Reachability: the transitive closure of a seed list under nested-type
discovery. -/
inductive Reach {ε : Type} (em : Emitters ε) (init : List RType) : RType → Prop
  | base (t : RType) : t ∈ init → Reach em init t
  | step (t u : RType) : Reach em init t → u ∈ discovered em t → Reach em init u

/-! ### Generic association-list and string lemmas -/

theorem alookup_append {α β : Type} [DecidableEq α] (m rest : List (α × β)) (k : α) :
    alookup (m ++ rest) k = match alookup m k with
      | some v => some v
      | none => alookup rest k := by
  induction m with
  | nil => simp [alookup]
  | cons e es ih =>
    by_cases h : e.1 = k <;> simp [alookup, h, ih]

theorem alookup_some_append {α β : Type} [DecidableEq α] {m : List (α × β)} {k : α} {v : β}
    (h : alookup m k = some v) (rest : List (α × β)) : alookup (m ++ rest) k = some v := by
  rw [alookup_append, h]

theorem alookup_none_append {α β : Type} [DecidableEq α] {m : List (α × β)} {k : α}
    (h : alookup m k = none) (rest : List (α × β)) : alookup (m ++ rest) k = alookup rest k := by
  rw [alookup_append, h]

theorem alookup_some_mem {α β : Type} [DecidableEq α] :
    ∀ {m : List (α × β)} {k : α} {v : β}, alookup m k = some v → (k, v) ∈ m := by
  intro m
  induction m with
  | nil => intro k v h; simp [alookup] at h
  | cons e es ih =>
    intro k v h
    by_cases he : e.1 = k
    · simp only [alookup, he, if_pos] at h
      cases h
      subst he
      exact List.mem_cons_self e es
    · simp only [alookup, he, if_neg, not_false_iff] at h
      exact List.mem_cons_of_mem _ (ih h)

theorem alookup_isSome_mem_keys {α β : Type} [DecidableEq α] :
    ∀ {m : List (α × β)} {k : α}, (alookup m k).isSome = true → k ∈ m.map Prod.fst := by
  intro m
  induction m with
  | nil => intro k h; simp [alookup] at h
  | cons e es ih =>
    intro k h
    by_cases he : e.1 = k
    · simp [he]
    · simp only [alookup, he, if_neg, not_false_iff] at h
      simpa using Or.inr (ih h)

theorem alookup_none_not_mem_keys {α β : Type} [DecidableEq α] {m : List (α × β)} {k : α}
    (h : alookup m k = none) : k ∉ m.map Prod.fst := by
  intro hk
  induction m with
  | nil => simp at hk
  | cons e es ih =>
    by_cases he : e.1 = k
    · simp [alookup, he] at h
    · simp only [alookup, he, if_neg, not_false_iff] at h
      rcases List.mem_map.mp hk with ⟨p, hp, hfst⟩
      rcases List.mem_cons.mp hp with rfl | hp2
      · exact he hfst
      · exact ih h (List.mem_map.mpr ⟨p, hp2, hfst⟩)

theorem mem_alookup_of_nodup_keys {α β : Type} [DecidableEq α] :
    ∀ {m : List (α × β)}, (m.map Prod.fst).Nodup → ∀ {e : α × β}, e ∈ m →
      alookup m e.1 = some e.2 := by
  intro m
  induction m with
  | nil => intro _ e he; simp at he
  | cons a as ih =>
    intro hnd e he
    simp only [List.map_cons, List.nodup_cons] at hnd
    rcases List.mem_cons.mp he with rfl | he2
    · simp [alookup]
    · have hne : a.1 ≠ e.1 := by
        intro hEq
        exact hnd.1 (hEq ▸ List.mem_map.mpr ⟨e, he2, rfl⟩)
      simp only [alookup, hne, if_neg, not_false_iff]
      exact ih hnd.2 he2

theorem nodup_values_alookup_inj {α β : Type} [DecidableEq α]
    {m : List (α × β)} (hnd : (m.map Prod.snd).Nodup)
    {k₁ k₂ : α} {v₁ v₂ : β} (h₁ : alookup m k₁ = some v₁) (h₂ : alookup m k₂ = some v₂)
    (hk : k₁ ≠ k₂) : v₁ ≠ v₂ := by
  intro hv
  subst hv
  have m₁ := alookup_some_mem h₁
  have m₂ := alookup_some_mem h₂
  have heq := List.inj_on_of_nodup_map hnd m₁ m₂ rfl
  exact hk (congrArg Prod.fst heq)

theorem aset_of_none {α β : Type} [DecidableEq α] :
    ∀ {m : List (α × β)} {k : α} (v : β), alookup m k = none → aset m k v = m ++ [(k, v)] := by
  intro m
  induction m with
  | nil => intro k v _; rfl
  | cons e es ih =>
    intro k v h
    by_cases he : e.1 = k
    · simp [alookup, he] at h
    · simp only [alookup, he, if_neg, not_false_iff] at h
      simp [aset, he, ih v h]

theorem aset_self {α β : Type} [DecidableEq α] :
    ∀ {m : List (α × β)} {k : α} {v : β}, alookup m k = some v → aset m k v = m := by
  intro m
  induction m with
  | nil => intro k v h; simp [alookup] at h
  | cons e es ih =>
    intro k v h
    by_cases he : e.1 = k
    · simp only [alookup, he, if_pos] at h
      cases h
      subst he
      simp [aset]
    · simp only [alookup, he, if_neg, not_false_iff] at h
      simp [aset, he, ih h]

/-! ### `Nat.repr` is injective and never empty -/

def charVal (c : Char) : Nat := c.toNat - 48

def digitsVal (l : List Char) : Nat := l.foldl (fun a c => 10 * a + charVal c) 0

theorem digitsVal_foldl (l : List Char) :
    ∀ a : Nat, l.foldl (fun a c => 10 * a + charVal c) a = a * 10 ^ l.length + digitsVal l := by
  induction l with
  | nil => intro a; simp [digitsVal]
  | cons c cs ih =>
    intro a
    show cs.foldl _ (10 * a + charVal c) = _
    rw [ih (10 * a + charVal c)]
    have h0 : digitsVal (c :: cs) = charVal c * 10 ^ cs.length + digitsVal cs := by
      show cs.foldl _ (10 * 0 + charVal c) = _
      rw [ih (10 * 0 + charVal c)]
      ring
    rw [h0]
    simp [List.length_cons, pow_succ]
    ring

theorem digitChar_toNat : ∀ m : Nat, m < 10 → (Nat.digitChar m).toNat = 48 + m := by decide

theorem toDigitsCore_val :
    ∀ (f n : Nat) (ds : List Char), n < f →
      digitsVal (Nat.toDigitsCore 10 f n ds) = n * 10 ^ ds.length + digitsVal ds := by
  intro f
  induction f with
  | zero => intro n ds h; omega
  | succ f ih =>
    intro n ds h
    show digitsVal (if n / 10 = 0 then Nat.digitChar (n % 10) :: ds
      else Nat.toDigitsCore 10 f (n / 10) (Nat.digitChar (n % 10) :: ds)) = _
    have hcv : charVal (Nat.digitChar (n % 10)) = n % 10 := by
      have hm : n % 10 < 10 := Nat.mod_lt _ (by omega)
      simp [charVal, digitChar_toNat _ hm]
    by_cases hz : n / 10 = 0
    · simp only [hz, if_pos]
      have : digitsVal (Nat.digitChar (n % 10) :: ds) =
          charVal (Nat.digitChar (n % 10)) * 10 ^ ds.length + digitsVal ds := by
        show ds.foldl _ (10 * 0 + charVal (Nat.digitChar (n % 10))) = _
        rw [digitsVal_foldl]
        ring
      rw [this, hcv]
      have : n % 10 = n := by omega
      rw [this]
    · simp only [hz, if_neg, not_false_iff]
      have hlt : n / 10 < f := by omega
      rw [ih (n / 10) (Nat.digitChar (n % 10) :: ds) hlt]
      have : digitsVal (Nat.digitChar (n % 10) :: ds) =
          (n % 10) * 10 ^ ds.length + digitsVal ds := by
        show ds.foldl _ (10 * 0 + charVal (Nat.digitChar (n % 10))) = _
        rw [digitsVal_foldl, hcv]
        ring
      rw [this, List.length_cons, pow_succ]
      have hdm : 10 * (n / 10) + n % 10 = n := Nat.div_add_mod n 10
      calc n / 10 * (10 ^ ds.length * 10) + ((n % 10) * 10 ^ ds.length + digitsVal ds)
      _ = (10 * (n / 10) + n % 10) * 10 ^ ds.length + digitsVal ds := by ring
      _ = n * 10 ^ ds.length + digitsVal ds := by rw [hdm]

theorem digitsVal_repr (n : Nat) : digitsVal (Nat.repr n).data = n := by
  show digitsVal (Nat.toDigits 10 n).asString.data = n
  have : (Nat.toDigits 10 n).asString.data = Nat.toDigitsCore 10 (n + 1) n [] := rfl
  rw [this, toDigitsCore_val (n + 1) n [] (Nat.lt_succ_self n)]
  simp [digitsVal]

theorem repr_inj : Function.Injective Nat.repr := by
  intro a b h
  have := congrArg (fun s => digitsVal s.data) h
  simpa [digitsVal_repr] using this

theorem repr_ne_empty (n : Nat) : Nat.repr n ≠ "" := by
  intro h
  have hv := digitsVal_repr n
  rw [h] at hv
  have hn : n = 0 := by simpa [digitsVal] using hv.symm
  subst hn
  exact absurd h (by decide)

/-! ### `mintLoop`: characterization and totality -/

theorem mintLoop_some_spec (isTaken : String → Bool) (cand : Nat → String) :
    ∀ (fuel i : Nat) (s : String), mintLoop isTaken cand fuel i = some s →
      ∃ j, i ≤ j ∧ j < i + fuel ∧ s = cand j ∧ isTaken (cand j) = false ∧
        ∀ k, i ≤ k → k < j → isTaken (cand k) = true := by
  intro fuel
  induction fuel with
  | zero => intro i s h; simp [mintLoop] at h
  | succ fuel ih =>
    intro i s h
    by_cases ht : isTaken (cand i) = true
    · simp only [mintLoop, ht, if_pos] at h
      rcases ih (i + 1) s h with ⟨j, hj1, hj2, hj3, hj4, hj5⟩
      refine ⟨j, by omega, by omega, hj3, hj4, ?_⟩
      intro k hk1 hk2
      by_cases hki : k = i
      · exact hki ▸ ht
      · exact hj5 k (by omega) hk2
    · simp only [mintLoop, ht, if_neg, not_false_iff] at h
      cases h
      exact ⟨i, le_refl i, by omega, rfl, by simpa using ht, fun k hk1 hk2 => by omega⟩

theorem mintLoop_isSome (isTaken : String → Bool) (cand : Nat → String) :
    ∀ (fuel i : Nat), (∃ j, i ≤ j ∧ j < i + fuel ∧ isTaken (cand j) = false) →
      (mintLoop isTaken cand fuel i).isSome = true := by
  intro fuel
  induction fuel with
  | zero => intro i h; rcases h with ⟨j, h1, h2, _⟩; omega
  | succ fuel ih =>
    intro i h
    by_cases ht : isTaken (cand i) = true
    · simp only [mintLoop, ht, if_pos]
      apply ih
      rcases h with ⟨j, h1, h2, h3⟩
      have : j ≠ i := fun hji => by rw [hji, ht] at h3; cases h3
      exact ⟨j, by omega, by omega, h3⟩
    · simp [mintLoop, ht]

/-- Pigeonhole: an injective candidate sequence cannot have all of
`fuel = L.length + 1` consecutive members inside the list `L`. -/
theorem exists_cand_not_mem (cand : Nat → String) (hinj : Function.Injective cand)
    (L : List String) (i : Nat) :
    ∃ j, i ≤ j ∧ j < i + (L.length + 1) ∧ cand j ∉ L := by
  by_contra hall
  push_neg at hall
  have hsub : (Finset.Ico i (i + (L.length + 1))).image cand ⊆ L.toFinset := by
    intro s hs
    rcases Finset.mem_image.mp hs with ⟨j, hj, rfl⟩
    rcases Finset.mem_Ico.mp hj with ⟨hj1, hj2⟩
    exact List.mem_toFinset.mpr (hall j hj1 hj2)
  have hcard : ((Finset.Ico i (i + (L.length + 1))).image cand).card = L.length + 1 := by
    rw [Finset.card_image_of_injOn hinj.injOn, Nat.card_Ico]
    omega
  have hle := Finset.card_le_card hsub
  rw [hcard] at hle
  have := List.toFinset_card_le L
  omega

theorem append_left_cancel_str {a b c : String} (h : a ++ b = a ++ c) : b = c := by
  have hd := congrArg String.data h
  rw [String.data_append, String.data_append] at hd
  exact String.ext (List.append_cancel_left hd)

theorem append_right_ne_self {a b : String} (hb : b ≠ "") : a ≠ a ++ b := by
  intro h
  have hd := congrArg String.data h
  rw [String.data_append] at hd
  have : b.data = [] := by
    have := @List.append_cancel_left _ a.data [] b.data (by simpa using hd)
    exact this.symm
  exact hb (String.ext (by simpa using this))

theorem suffix_cand_inj (nm : String) : Function.Injective (fun i => nm ++ Nat.repr i) := by
  intro a b h
  exact repr_inj (append_left_cancel_str h)

theorem aliasCand_inj (p : String) : Function.Injective (aliasCand p) := by
  intro a b h
  unfold aliasCand at h
  by_cases ha : a = 0 <;> by_cases hb : b = 0
  · omega
  · rw [if_pos ha, if_neg hb] at h
    exact absurd h (append_right_ne_self (repr_ne_empty b))
  · rw [if_neg ha, if_pos hb] at h
    exact absurd h.symm (append_right_ne_self (repr_ne_empty a))
  · rw [if_neg ha, if_neg hb] at h
    exact repr_inj (append_left_cancel_str h)

/-! ### `functionName`: binding, stability, injectivity -/

def nodupKeys {α β : Type} (m : List (α × β)) : Prop := (m.map Prod.fst).Nodup

theorem listHasPfx_self_append : ∀ (p r : List Char), listHasPfx p (p ++ r) = true := by
  intro p
  induction p with
  | nil => intro r; rfl
  | cons c cs ih => intro r; simp [listHasPfx, ih r]

theorem strHasPfx_append (p r : String) : strHasPfx (p ++ r) p = true := by
  unfold strHasPfx
  rw [String.data_append]
  exact listHasPfx_self_append p.data r.data

/-- The candidate-minting search inside `functionName` always succeeds. -/
theorem functionName_mint_isSome (m : List (String × RType)) (nm : String) :
    (mintLoop (fun s => (alookup m s).isSome) (fun i => nm ++ Nat.repr i)
      (m.length + 1) 1).isSome = true := by
  apply mintLoop_isSome
  rcases exists_cand_not_mem (fun i => nm ++ Nat.repr i) (suffix_cand_inj nm)
    (m.map Prod.fst) 1 with ⟨j, hj1, hj2, hj3⟩
  refine ⟨j, hj1, by simpa using hj2, ?_⟩
  by_cases h : (alookup m (nm ++ Nat.repr j)).isSome = true
  · exact absurd (alookup_isSome_mem_keys h) hj3
  · simpa using h

theorem functionName_case_none {g : GenState} {pfx : String} {t : RType}
    (h : alookup g.functionNames (pfx ++ safeName t) = none) :
    functionName g pfx t = (pfx ++ safeName t,
      { g with functionNames := g.functionNames ++ [(pfx ++ safeName t, t)] }) := by
  simp [functionName, h, aset_of_none _ h]

theorem functionName_case_self {g : GenState} {pfx : String} {t : RType}
    (h : alookup g.functionNames (pfx ++ safeName t) = some t) :
    functionName g pfx t = (pfx ++ safeName t, g) := by
  have := aset_self h
  simp [functionName, h, this]

theorem functionName_case_found {g : GenState} {pfx : String} {t : RType} {e : RType}
    {en : String × RType}
    (h : alookup g.functionNames (pfx ++ safeName t) = some e) (hne : e ≠ t)
    (hf : g.functionNames.find? (fun en => en.2 == t && strHasPfx en.1 pfx) = some en) :
    functionName g pfx t = (en.1, g) := by
  simp [functionName, h, hne, hf]

theorem functionName_case_mint {g : GenState} {pfx : String} {t : RType} {e : RType}
    (h : alookup g.functionNames (pfx ++ safeName t) = some e) (hne : e ≠ t)
    (hf : g.functionNames.find? (fun en => en.2 == t && strHasPfx en.1 pfx) = none) :
    ∃ j, 1 ≤ j ∧
      functionName g pfx t = ((pfx ++ safeName t) ++ Nat.repr j,
        { g with functionNames := g.functionNames ++ [((pfx ++ safeName t) ++ Nat.repr j, t)] }) ∧
      alookup g.functionNames ((pfx ++ safeName t) ++ Nat.repr j) = none := by
  have htot := functionName_mint_isSome g.functionNames (pfx ++ safeName t)
  rcases hm : mintLoop (fun s => (alookup g.functionNames s).isSome)
      (fun i => (pfx ++ safeName t) ++ Nat.repr i) (g.functionNames.length + 1) 1 with _ | fresh
  · rw [hm] at htot; simp at htot
  · rcases mintLoop_some_spec _ _ _ _ _ hm with ⟨j, hj1, _, hj3, hj4, _⟩
    have hnone : alookup g.functionNames ((pfx ++ safeName t) ++ Nat.repr j) = none := by
      rcases hl : alookup g.functionNames ((pfx ++ safeName t) ++ Nat.repr j) with _ | v
      · rfl
      · rw [hl] at hj4; simp at hj4
    refine ⟨j, hj1, ?_, hnone⟩
    rw [hj3] at hm
    simp [functionName, h, hne, hf, hm, aset_of_none _ hnone]

/-- A `functionName` call only appends fresh-keyed bindings (of the
requested type) to the registry; existing bindings are untouched. -/
theorem functionName_ext (g : GenState) (pfx : String) (t : RType) :
    ∃ tail, (functionName g pfx t).2.functionNames = g.functionNames ++ tail ∧
      (tail = [] ∨ ∃ k, tail = [(k, t)] ∧ alookup g.functionNames k = none) := by
  rcases h : alookup g.functionNames (pfx ++ safeName t) with _ | e
  · rw [functionName_case_none h]
    exact ⟨[(pfx ++ safeName t, t)], rfl, Or.inr ⟨_, rfl, h⟩⟩
  · by_cases het : e = t
    · subst het
      rw [functionName_case_self h]
      exact ⟨[], by simp, Or.inl rfl⟩
    · rcases hf : g.functionNames.find? (fun en => en.2 == t && strHasPfx en.1 pfx) with _ | en
      · rcases functionName_case_mint h het hf with ⟨j, _, heq, hnone⟩
        rw [heq]
        exact ⟨[((pfx ++ safeName t) ++ Nat.repr j, t)], rfl, Or.inr ⟨_, rfl, hnone⟩⟩
      · rw [functionName_case_found h het hf]
        exact ⟨[], by simp, Or.inl rfl⟩

theorem functionName_persist {g : GenState} {pfx : String} {t : RType} {k : String} {v : RType}
    (h : alookup g.functionNames k = some v) :
    alookup (functionName g pfx t).2.functionNames k = some v := by
  rcases functionName_ext g pfx t with ⟨tail, heq, _⟩
  rw [heq]
  exact alookup_some_append h tail

theorem functionName_nodupKeys {g : GenState} {pfx : String} {t : RType}
    (hk : nodupKeys g.functionNames) : nodupKeys (functionName g pfx t).2.functionNames := by
  rcases functionName_ext g pfx t with ⟨tail, heq, htail⟩
  rw [nodupKeys, heq]
  rcases htail with rfl | ⟨k, rfl, hnone⟩
  · simpa using hk
  · have hk2 : k ∉ g.functionNames.map Prod.fst := alookup_none_not_mem_keys hnone
    simp only [List.map_append]
    rw [List.nodup_append]
    refine ⟨hk, by simp, ?_⟩
    intro a ha hb
    simp at hb
    exact hk2 (hb ▸ ha)

/-- The returned name is bound to the requested type in the resulting
registry. -/
theorem functionName_binds (g : GenState) (pfx : String) (t : RType)
    (hk : nodupKeys g.functionNames) :
    alookup (functionName g pfx t).2.functionNames (functionName g pfx t).1 = some t := by
  rcases h : alookup g.functionNames (pfx ++ safeName t) with _ | e
  · rw [functionName_case_none h]
    rw [alookup_none_append h]
    simp [alookup]
  · by_cases het : e = t
    · subst het
      rw [functionName_case_self h]
      exact h
    · rcases hf : g.functionNames.find? (fun en => en.2 == t && strHasPfx en.1 pfx) with _ | en
      · rcases functionName_case_mint h het hf with ⟨j, _, heq, hnone⟩
        rw [heq]
        rw [alookup_none_append hnone]
        simp [alookup]
      · rw [functionName_case_found h het hf]
        have hmem := List.mem_of_find?_eq_some hf
        have hpred := List.find?_some hf
        have ht2 : en.2 = t := by
          simp only [Bool.and_eq_true, beq_iff_eq] at hpred
          exact hpred.1
        have := mem_alookup_of_nodup_keys hk hmem
        rw [ht2] at this
        exact this

/-- Interleaved `NameFor` calls, state-threaded. -/
def evolveF (g : GenState) (calls : List (String × RType)) : GenState :=
  calls.foldl (fun g c => (functionName g c.1 c.2).2) g

theorem evolveF_ext (calls : List (String × RType)) :
    ∀ g : GenState, ∃ tail, (evolveF g calls).functionNames = g.functionNames ++ tail := by
  induction calls with
  | nil => intro g; exact ⟨[], by simp [evolveF]⟩
  | cons c cs ih =>
    intro g
    rcases functionName_ext g c.1 c.2 with ⟨t1, h1, _⟩
    rcases ih ((functionName g c.1 c.2).2) with ⟨t2, h2⟩
    refine ⟨t1 ++ t2, ?_⟩
    show (evolveF (functionName g c.1 c.2).2 cs).functionNames = _
    rw [h2, h1, List.append_assoc]

theorem evolveF_persist (calls : List (String × RType)) :
    ∀ (g : GenState) (k : String) (v : RType), alookup g.functionNames k = some v →
      alookup (evolveF g calls).functionNames k = some v := by
  induction calls with
  | nil => intro g k v h; exact h
  | cons c cs ih =>
    intro g k v h
    exact ih _ k v (functionName_persist h)

theorem evolveF_nodupKeys (calls : List (String × RType)) :
    ∀ g : GenState, nodupKeys g.functionNames → nodupKeys (evolveF g calls).functionNames := by
  induction calls with
  | nil => intro g h; exact h
  | cons c cs ih => intro g h; exact ih _ (functionName_nodupKeys h)

theorem str_append_assoc (a b c : String) : (a ++ b) ++ c = a ++ (b ++ c) := by
  apply String.ext
  simp [String.data_append, List.append_assoc]

/-- C5, amended: repeated `NameFor` calls with the same (prefix, type)
arguments within one run return an identical string — regardless of which
other (prefix, type) pairs were named in between and in what order, and
including after a clash was resolved by integer suffixing — provided the
clash-recovery scan visits the registry entries in insertion order
(earlier-registered entries first), the deterministic instance of
`functionNameScan` that `functionName` fixes.  Under the unspecified,
randomized map iteration order of Go the property fails: once two
registry entries of the same type match the prefix, two admissible scan
orders can make repeated calls return different strings (refuted
separately on `functionNameScan`). -/
theorem nameFor_idempotent (g : GenState) (pfx : String) (t : RType)
    (calls : List (String × RType)) :
    (functionName (evolveF (functionName g pfx t).2 calls) pfx t).1 =
      (functionName g pfx t).1 := by
  rcases h : alookup g.functionNames (pfx ++ safeName t) with _ | e
  · rw [functionName_case_none h]
    have hb : alookup ({ g with functionNames :=
        g.functionNames ++ [(pfx ++ safeName t, t)] } : GenState).functionNames
        (pfx ++ safeName t) = some t := by
      show alookup (g.functionNames ++ [(pfx ++ safeName t, t)]) (pfx ++ safeName t) = some t
      rw [alookup_none_append h]
      simp [alookup]
    have hb2 := evolveF_persist calls _ _ _ hb
    rw [functionName_case_self hb2]
  · by_cases het : e = t
    · subst het
      rw [functionName_case_self h]
      have hb2 := evolveF_persist calls g _ _ h
      rw [functionName_case_self hb2]
    · rcases hf : g.functionNames.find? (fun en => en.2 == t && strHasPfx en.1 pfx) with _ | en
      · rcases functionName_case_mint h het hf with ⟨j, _, heq, hnone⟩
        rw [heq]
        set g1 : GenState := { g with functionNames :=
          g.functionNames ++ [((pfx ++ safeName t) ++ Nat.repr j, t)] } with hg1
        have hb : alookup g1.functionNames (pfx ++ safeName t) = some e :=
          alookup_some_append h _
        have hb2 := evolveF_persist calls g1 _ _ hb
        rcases evolveF_ext calls g1 with ⟨tail, htail⟩
        have hfind : (evolveF g1 calls).functionNames.find?
            (fun en => en.2 == t && strHasPfx en.1 pfx) =
            some ((pfx ++ safeName t) ++ Nat.repr j, t) := by
          rw [htail]
          show ((g.functionNames ++ [((pfx ++ safeName t) ++ Nat.repr j, t)]) ++ tail).find? _ = _
          rw [List.append_assoc, List.find?_append, hf]
          simp only [Option.none_or, List.singleton_append]
          have hpf : strHasPfx ((pfx ++ safeName t) ++ Nat.repr j) pfx = true := by
            rw [str_append_assoc]
            exact strHasPfx_append pfx (safeName t ++ Nat.repr j)
          have hpred : (fun (en : String × RType) => en.2 == t && strHasPfx en.1 pfx)
              (((pfx ++ safeName t) ++ Nat.repr j, t)) = true := by
            simp [hpf]
          exact List.find?_cons_of_pos _ hpred
        rw [functionName_case_found hb2 het hfind]
      · rw [functionName_case_found h het hf]
        have hb2 := evolveF_persist calls g _ _ h
        rcases evolveF_ext calls g with ⟨tail, htail⟩
        have hfind : (evolveF g calls).functionNames.find?
            (fun en => en.2 == t && strHasPfx en.1 pfx) = some en := by
          rw [htail, List.find?_append, hf]
          simp
        rw [functionName_case_found hb2 het hfind]

/-- C4: For every prefix and distinct types t₁ ≠ t₂ (including distinct
anonymous record types whose escaped names collide), `NameFor` returns
different strings even across interleaved calls, and a symbol name, once
bound, is never reassigned to a different type. -/
theorem nameFor_injective (g : GenState) (pfx : String) (t₁ t₂ : RType)
    (calls : List (String × RType)) (hk : nodupKeys g.functionNames) (hne : t₁ ≠ t₂) :
    (functionName g pfx t₁).1 ≠
      (functionName (evolveF (functionName g pfx t₁).2 calls) pfx t₂).1 ∧
    (∀ k v, alookup g.functionNames k = some v →
      alookup (functionName g pfx t₁).2.functionNames k = some v) := by
  constructor
  · intro heq
    have b1 : alookup (functionName g pfx t₁).2.functionNames (functionName g pfx t₁).1 =
        some t₁ := functionName_binds g pfx t₁ hk
    have k1 : nodupKeys (functionName g pfx t₁).2.functionNames := functionName_nodupKeys hk
    have b1e := evolveF_persist calls _ _ _ b1
    have k2 := evolveF_nodupKeys calls _ k1
    have b2 : alookup (functionName (evolveF (functionName g pfx t₁).2 calls) pfx t₂).2.functionNames
        (functionName (evolveF (functionName g pfx t₁).2 calls) pfx t₂).1 = some t₂ :=
      functionName_binds _ pfx t₂ k2
    have b1f := @functionName_persist _ pfx t₂ _ _ b1e
    rw [heq] at b1f
    rw [b1f] at b2
    exact hne (by injection b2)
  · intro k v h
    exact functionName_persist h

/-- Fixture: two distinct anonymous record types (same empty name and
package path, different structure rendering). -/
def anonA : RType := { name := "", pkgPath := "", str := "struct \x7b A int \x7d" }

def anonB : RType := { name := "", pkgPath := "", str := "struct \x7b B int \x7d" }

theorem nameFor_injective_witness :
    (functionName newGenerator "easyjson_decode_" anonA).1 ≠
      (functionName (evolveF (functionName newGenerator "easyjson_decode_" anonA).2
        [("easyjson_encode_", anonA)]) "easyjson_decode_" anonB).1 :=
  (nameFor_injective newGenerator "easyjson_decode_" anonA anonB
    [("easyjson_encode_", anonA)] (by simp [nodupKeys, newGenerator]) (by decide)).1

/-- A run state reached by three real `functionName` calls: the
anonymous type `anonB` named under the prefix `a`, then `anonA` named
under the prefixes `ab` and `ac`.  Its registry holds
`aanonymous ↦ anonB`, `abanonymous ↦ anonA`, `acanonymous ↦ anonA`, so
two entries of type `anonA` match the prefix `a`. -/
def gScan : GenState :=
  (functionName (functionName (functionName newGenerator "a" anonB).2 "ab" anonA).2
    "ac" anonA).2

/-- C5 counterexample: the claim as stated is false on the code.  With
the clash-recovery scan running in the unspecified order of a Go map
range, two successive `NameFor` calls with the same arguments
`("a", anonA)` from the reachable state `gScan` may use two different —
equally admissible — scan orders (the registry in insertion order, then
reversed; both permutations of the then-current registry, which the
first call leaves unchanged) and return the two different strings
`abanonymous` and `acanonymous`. -/
theorem nameFor_idempotent_counterexample :
    List.Perm gScan.functionNames gScan.functionNames ∧
    List.Perm gScan.functionNames.reverse
      (functionNameScan gScan.functionNames gScan "a" anonA).2.functionNames ∧
    (functionNameScan gScan.functionNames gScan "a" anonA).1 = "abanonymous" ∧
    (functionNameScan gScan.functionNames.reverse
      (functionNameScan gScan.functionNames gScan "a" anonA).2 "a" anonA).1 =
      "acanonymous" ∧
    (functionNameScan gScan.functionNames gScan "a" anonA).1 ≠
      (functionNameScan gScan.functionNames.reverse
        (functionNameScan gScan.functionNames gScan "a" anonA).2 "a" anonA).1 := by
  refine ⟨List.Perm.refl _, ?_, by decide, by decide, by decide⟩
  have hstate : (functionNameScan gScan.functionNames gScan "a" anonA).2 = gScan := by
    decide
  rw [hstate]
  exact List.reverse_perm _

/-! ### `pkgAlias`: idempotence, injectivity, first-free-candidate -/

/-- Import-table well-formedness: no empty alias, unique aliases, unique
paths (all hold for `newGenerator` and are preserved by every call). -/
def IWF (g : GenState) : Prop :=
  (∀ pa ∈ g.imports, pa.2 ≠ "") ∧ (g.imports.map Prod.snd).Nodup ∧
    (g.imports.map Prod.fst).Nodup

theorem dropWhile_head_false {α : Type} (p : α → Bool) :
    ∀ (l : List α) (c : α) (cs : List α), l.dropWhile p = c :: cs → p c = false := by
  intro l
  induction l with
  | nil => intro c cs h; simp [List.dropWhile] at h
  | cons a as ih =>
    intro c cs h
    by_cases hp : p a = true
    · rw [List.dropWhile_cons_of_pos hp] at h
      exact ih c cs h
    · rw [List.dropWhile_cons_of_neg hp] at h
      cases h
      simpa using hp

theorem string_mk_ne_empty (c : Char) (l : List Char) : String.mk (c :: l) ≠ "" := by
  intro h
  have := congrArg String.data h
  simp at this

theorem pathBase_ne_empty (p : String) : pathBase p ≠ "" := by
  unfold pathBase
  by_cases h0 : p = ""
  · simp [h0]
  · simp only [h0, if_neg, not_false_iff]
    rcases hr : p.toList.reverse.dropWhile (fun c => c = '/') with _ | ⟨c, cs⟩
    · simp
    · simp only [if_neg (by simp : ¬ (c :: cs = []))]
      have hc : (fun c => decide (c = '/')) c = false := dropWhile_head_false _ _ c cs hr
      have : (c :: cs).takeWhile (fun c => ¬ (c = '/')) = c :: cs.takeWhile (fun c => ¬ (c = '/')) := by
        rw [List.takeWhile_cons_of_pos]
        simpa using hc
      rw [this]
      simp only [List.reverse_cons]
      rcases hrev : (cs.takeWhile (fun c => ¬ (c = '/'))).reverse with _ | ⟨d, ds⟩
      · simpa [hrev] using string_mk_ne_empty c []
      · simpa [hrev] using string_mk_ne_empty d (ds ++ [c])

theorem str_append_ne_empty {a : String} (b : String) (ha : a ≠ "") : a ++ b ≠ "" := by
  intro h
  have hd := congrArg String.data h
  rw [String.data_append] at hd
  rcases List.append_eq_nil.mp hd with ⟨h1, _⟩
  exact ha (String.ext h1)

theorem aliasCand_ne_empty (p : String) (i : Nat) : aliasCand p i ≠ "" := by
  unfold aliasCand
  by_cases hi : i = 0
  · simpa [hi] using pathBase_ne_empty p
  · simpa [hi] using str_append_ne_empty (Nat.repr i) (pathBase_ne_empty p)

theorem pkgAlias_case_hit {g : GenState} {p : String} {a : String}
    (h : alookup g.imports p = some a) (ha : a ≠ "") : pkgAlias g p = (a, g) := by
  simp [pkgAlias, h, ha]

theorem pkgAlias_miss_reduce {g : GenState} {p : String} (h : alookup g.imports p = none) :
    pkgAlias g p = (match mintLoop (fun s => (g.imports.map Prod.snd).contains s) (aliasCand p)
        ((g.imports.map Prod.snd).length + 1) 0 with
      | some fresh => (fresh, { g with imports := g.imports ++ [(p, fresh)] })
      | none => ("", g)) := by
  unfold pkgAlias
  rw [h]
  rfl

theorem pkgAlias_case_miss {g : GenState} {p : String} (h : alookup g.imports p = none) :
    ∃ j, pkgAlias g p = (aliasCand p j, { g with imports := g.imports ++ [(p, aliasCand p j)] }) ∧
      aliasCand p j ∉ g.imports.map Prod.snd ∧
      ∀ k, k < j → aliasCand p k ∈ g.imports.map Prod.snd := by
  have htot : (mintLoop (fun s => (g.imports.map Prod.snd).contains s) (aliasCand p)
      ((g.imports.map Prod.snd).length + 1) 0).isSome = true := by
    apply mintLoop_isSome
    rcases exists_cand_not_mem (aliasCand p) (aliasCand_inj p) (g.imports.map Prod.snd) 0 with
      ⟨j, hj1, hj2, hj3⟩
    refine ⟨j, hj1, hj2, ?_⟩
    by_cases hc : (g.imports.map Prod.snd).contains (aliasCand p j) = true
    · exact absurd (List.elem_iff.mp hc) hj3
    · simpa using hc
  rcases hm : mintLoop (fun s => (g.imports.map Prod.snd).contains s) (aliasCand p)
      ((g.imports.map Prod.snd).length + 1) 0 with _ | fresh
  · rw [hm] at htot; simp at htot
  · rcases mintLoop_some_spec _ _ _ _ _ hm with ⟨j, _, _, hj3, hj4, hj5⟩
    refine ⟨j, ?_, ?_, ?_⟩
    · rw [hj3] at hm
      rw [pkgAlias_miss_reduce h, hm]
    · intro hmem
      have hco : (g.imports.map Prod.snd).contains (aliasCand p j) = true :=
        List.elem_iff.mpr hmem
      rw [hco] at hj4
      cases hj4
    · intro k hk
      exact List.elem_iff.mp (hj5 k (Nat.zero_le k) hk)

theorem pkgAlias_ext (g : GenState) (p : String) :
    ∃ tail, (pkgAlias g p).2.imports = g.imports ++ tail := by
  rcases hl : alookup g.imports p with _ | a
  · rcases pkgAlias_case_miss hl with ⟨j, heq, _, _⟩
    rw [heq]
    exact ⟨[(p, aliasCand p j)], rfl⟩
  · by_cases ha : a = ""
    · subst ha
      unfold pkgAlias
      rw [hl]
      simp only [Option.getD_some, ne_eq, not_true_eq_false, if_false]
      rcases hm : mintLoop (fun s => (g.imports.map Prod.snd).contains s) (aliasCand p)
          ((g.imports.map Prod.snd).length + 1) 0 with _ | fresh
      · exact ⟨[], by simp⟩
      · exact ⟨[(p, fresh)], rfl⟩
    · rw [pkgAlias_case_hit hl ha]
      exact ⟨[], by simp⟩

theorem pkgAlias_persist {g : GenState} {p k : String} {v : String}
    (h : alookup g.imports k = some v) : alookup (pkgAlias g p).2.imports k = some v := by
  rcases pkgAlias_ext g p with ⟨tail, heq⟩
  rw [heq]
  exact alookup_some_append h tail

theorem pkgAlias_binds (g : GenState) (p : String) (hw : IWF g) :
    alookup (pkgAlias g p).2.imports p = some ((pkgAlias g p).1) ∧ (pkgAlias g p).1 ≠ "" := by
  rcases hl : alookup g.imports p with _ | a
  · rcases pkgAlias_case_miss hl with ⟨j, heq, _, _⟩
    rw [heq]
    constructor
    · show alookup (g.imports ++ [(p, aliasCand p j)]) p = _
      rw [alookup_none_append hl]
      simp [alookup]
    · exact aliasCand_ne_empty p j
  · have ha : a ≠ "" := hw.1 (p, a) (alookup_some_mem hl)
    rw [pkgAlias_case_hit hl ha]
    exact ⟨hl, ha⟩

theorem pkgAlias_IWF (g : GenState) (p : String) (hw : IWF g) : IWF (pkgAlias g p).2 := by
  rcases hl : alookup g.imports p with _ | a
  · rcases pkgAlias_case_miss hl with ⟨j, heq, hnm, _⟩
    rw [heq]
    refine ⟨?_, ?_, ?_⟩
    · intro pa hpa
      rcases List.mem_append.mp hpa with h1 | h1
      · exact hw.1 pa h1
      · simp at h1
        subst h1
        exact aliasCand_ne_empty p j
    · show ((g.imports ++ [(p, aliasCand p j)]).map Prod.snd).Nodup
      rw [List.map_append, List.nodup_append]
      exact ⟨hw.2.1, by simp, by
        intro a ha hb
        simp at hb
        exact hnm (hb ▸ ha)⟩
    · show ((g.imports ++ [(p, aliasCand p j)]).map Prod.fst).Nodup
      rw [List.map_append, List.nodup_append]
      refine ⟨hw.2.2, by simp, ?_⟩
      intro a ha hb
      simp at hb
      subst hb
      exact alookup_none_not_mem_keys hl ha
  · have ha : a ≠ "" := hw.1 (p, a) (alookup_some_mem hl)
    rw [pkgAlias_case_hit hl ha]
    exact hw

/-- Interleaved `AliasFor` calls, state-threaded. -/
def evolveA (g : GenState) (calls : List String) : GenState :=
  calls.foldl (fun g p => (pkgAlias g p).2) g

theorem evolveA_persist (calls : List String) :
    ∀ (g : GenState) (k v : String), alookup g.imports k = some v →
      alookup (evolveA g calls).imports k = some v := by
  induction calls with
  | nil => intro g k v h; exact h
  | cons c cs ih => intro g k v h; exact ih _ k v (pkgAlias_persist h)

theorem evolveA_IWF (calls : List String) :
    ∀ g : GenState, IWF g → IWF (evolveA g calls) := by
  induction calls with
  | nil => intro g h; exact h
  | cons c cs ih => intro g h; exact ih _ (pkgAlias_IWF g c h)

/-- C7: `AliasFor` is idempotent (same path always returns the same
alias, across interleaved calls) and injective across distinct paths;
for an unregistered path the chosen alias is the first free candidate in
the sequence base, base1, base2, …, and the winning pair is recorded. -/
theorem aliasFor_props (g : GenState) (p₁ p₂ : String) (calls : List String)
    (hw : IWF g) (hne : p₁ ≠ p₂) :
    (pkgAlias (evolveA (pkgAlias g p₁).2 calls) p₁).1 = (pkgAlias g p₁).1 ∧
    (pkgAlias g p₁).1 ≠ (pkgAlias (evolveA (pkgAlias g p₁).2 calls) p₂).1 ∧
    (alookup g.imports p₁ = none → ∃ j, (pkgAlias g p₁).1 = aliasCand p₁ j ∧
      (∀ k, k < j → aliasCand p₁ k ∈ g.imports.map Prod.snd) ∧
      aliasCand p₁ j ∉ g.imports.map Prod.snd ∧
      alookup (pkgAlias g p₁).2.imports p₁ = some (aliasCand p₁ j)) := by
  rcases pkgAlias_binds g p₁ hw with ⟨hb1, hne1⟩
  have hw1 : IWF (pkgAlias g p₁).2 := pkgAlias_IWF g p₁ hw
  have hb1e := evolveA_persist calls _ _ _ hb1
  have hw2 : IWF (evolveA (pkgAlias g p₁).2 calls) := evolveA_IWF calls _ hw1
  refine ⟨?_, ?_, ?_⟩
  · rw [pkgAlias_case_hit hb1e hne1]
  · rcases pkgAlias_binds (evolveA (pkgAlias g p₁).2 calls) p₂ hw2 with ⟨hb2, _⟩
    have hb1f := pkgAlias_persist (p := p₂) hb1e
    have hw3 : IWF (pkgAlias (evolveA (pkgAlias g p₁).2 calls) p₂).2 :=
      pkgAlias_IWF _ p₂ hw2
    exact nodup_values_alookup_inj hw3.2.1 hb1f hb2 hne
  · intro hmiss
    rcases pkgAlias_case_miss hmiss with ⟨j, heq, hnm, hlt⟩
    refine ⟨j, by rw [heq], hlt, hnm, ?_⟩
    rw [heq]
    show alookup (g.imports ++ [(p₁, aliasCand p₁ j)]) p₁ = _
    rw [alookup_none_append hmiss]
    simp [alookup]

theorem aliasFor_props_witness :
    (pkgAlias (evolveA (pkgAlias newGenerator "my/pkg/json").2 ["x/y"]) "my/pkg/json").1 =
      (pkgAlias newGenerator "my/pkg/json").1 ∧
    (pkgAlias newGenerator "my/pkg/json").1 ≠
      (pkgAlias (evolveA (pkgAlias newGenerator "my/pkg/json").2 ["x/y"]) "a/b").1 :=
  ⟨(aliasFor_props newGenerator "my/pkg/json" "a/b" ["x/y"]
      (by unfold IWF; exact ⟨by decide, by decide, by decide⟩) (by decide)).1,
   (aliasFor_props newGenerator "my/pkg/json" "a/b" ["x/y"]
      (by unfold IWF; exact ⟨by decide, by decide, by decide⟩) (by decide)).2.1⟩

/-- C10: the textual type reference is the host rendering for unnamed or
path-less types, the bare local name for types of the output package, and
`alias.Name` (with the allocated import alias) otherwise. -/
theorem getType_spec (g : GenState) (t : RType) :
    ((t.name = "" ∨ t.pkgPath = "") → getType g t = (t.str, g)) ∧
    (t.name ≠ "" → t.pkgPath ≠ "" → t.pkgPath = g.pkgPath → getType g t = (t.name, g)) ∧
    (t.name ≠ "" → t.pkgPath ≠ "" → t.pkgPath ≠ g.pkgPath →
      getType g t = ((pkgAlias g t.pkgPath).1 ++ "." ++ t.name, (pkgAlias g t.pkgPath).2)) := by
  refine ⟨?_, ?_, ?_⟩
  · intro h
    simp [getType, h]
  · intro h1 h2 h3
    have hnor : ¬ (t.name = "" ∨ t.pkgPath = "") := by
      intro hc
      rcases hc with hc | hc
      · exact h1 hc
      · exact h2 hc
    unfold getType
    rw [if_neg hnor, if_pos h3]
  · intro h1 h2 h3
    have hnor : ¬ (t.name = "" ∨ t.pkgPath = "") := by
      intro hc
      rcases hc with hc | hc
      · exact h1 hc
      · exact h2 hc
    unfold getType
    rw [if_neg hnor, if_neg h3]

def tOther : RType := { name := "T", pkgPath := "other/pkg", str := "pkg.T" }

theorem getType_spec_witness :
    getType newGenerator tOther =
      ((pkgAlias newGenerator "other/pkg").1 ++ "." ++ "T",
        (pkgAlias newGenerator "other/pkg").2) :=
  (getType_spec newGenerator tOther).2.2 (by decide) (by decide) (by decide)

/-! ### Worklist lemmas -/

theorem addType_eq (g : GenState) (t : RType) :
    addType g t = { g with typesUnseen := addT g.typesSeen g.typesUnseen t } := by
  unfold addType addT
  by_cases h1 : t ∈ g.typesSeen
  · simp [h1]
  · by_cases h2 : t ∈ g.typesUnseen <;> simp [h1, h2]

theorem addTypes_eq (l : List RType) :
    ∀ g : GenState, addTypes g l = { g with typesUnseen := addTs g.typesSeen g.typesUnseen l } := by
  induction l with
  | nil => intro g; rfl
  | cons u us ih =>
    intro g
    show addTypes (addType g u) us = _
    rw [ih (addType g u), addType_eq]
    rfl

theorem mem_pushSeen {s : List RType} {t u : RType} :
    u ∈ pushSeen s t ↔ (u ∈ s ∨ u = t) := by
  unfold pushSeen
  by_cases h : t ∈ s
  · simp only [h, if_pos]
    constructor
    · exact Or.inl
    · rintro (hu | rfl)
      · exact hu
      · exact h
  · simp [h]

theorem self_mem_pushSeen (s : List RType) (t : RType) : t ∈ pushSeen s t :=
  mem_pushSeen.mpr (Or.inr rfl)

theorem addT_subset {seen pending : List RType} {t u : RType} (h : u ∈ pending) :
    u ∈ addT seen pending t := by
  unfold addT
  split
  · exact h
  · split
    · exact h
    · exact List.mem_append_left _ h

theorem addT_mem_or {seen pending : List RType} {t u : RType} (h : u ∈ addT seen pending t) :
    u ∈ pending ∨ u = t := by
  unfold addT at h
  split at h
  · exact Or.inl h
  · split at h
    · exact Or.inl h
    · rcases List.mem_append.mp h with h1 | h1
      · exact Or.inl h1
      · simp at h1
        exact Or.inr h1

theorem addT_covered (seen pending : List RType) (t : RType) :
    t ∈ addT seen pending t ∨ t ∈ seen := by
  unfold addT
  by_cases h1 : t ∈ seen
  · rw [if_pos h1]
    exact Or.inr h1
  · rw [if_neg h1]
    by_cases h2 : t ∈ pending
    · rw [if_pos h2]
      exact Or.inl h2
    · rw [if_neg h2]
      exact Or.inl (List.mem_append_right _ (by simp))

theorem addT_nodup {seen pending : List RType} {t : RType} (h : pending.Nodup) :
    (addT seen pending t).Nodup := by
  unfold addT
  split
  · exact h
  · split
    · exact h
    · next h2 =>
      rw [List.nodup_append]
      exact ⟨h, by simp, by
        intro a ha hb
        simp at hb
        exact h2 (hb ▸ ha)⟩

theorem addT_not_seen {seen pending : List RType} {t : RType}
    (h : ∀ u ∈ pending, u ∉ seen) : ∀ u ∈ addT seen pending t, u ∉ seen := by
  intro u hu
  unfold addT at hu
  split at hu
  · exact h u hu
  · next h1 =>
    split at hu
    · exact h u hu
    · rcases List.mem_append.mp hu with h2 | h2
      · exact h u h2
      · simp at h2
        exact h2 ▸ h1

theorem addTs_subset {seen : List RType} (l : List RType) :
    ∀ {pending : List RType} {u : RType}, u ∈ pending → u ∈ addTs seen pending l := by
  induction l with
  | nil => intro pending u h; exact h
  | cons a as ih =>
    intro pending u h
    exact ih (addT_subset h)

theorem addTs_mem_or {seen : List RType} (l : List RType) :
    ∀ {pending : List RType} {u : RType}, u ∈ addTs seen pending l →
      u ∈ pending ∨ u ∈ l := by
  induction l with
  | nil => intro pending u h; exact Or.inl h
  | cons a as ih =>
    intro pending u h
    rcases ih h with h1 | h1
    · rcases addT_mem_or h1 with h2 | h2
      · exact Or.inl h2
      · exact Or.inr (h2 ▸ List.mem_cons_self a as)
    · exact Or.inr (List.mem_cons_of_mem a h1)

theorem addTs_covered {seen : List RType} (l : List RType) :
    ∀ {pending : List RType} {u : RType}, u ∈ l →
      u ∈ addTs seen pending l ∨ u ∈ seen := by
  induction l with
  | nil => intro pending u h; simp at h
  | cons a as ih =>
    intro pending u h
    rcases List.mem_cons.mp h with rfl | h1
    · rcases addT_covered seen pending u with h2 | h2
      · exact Or.inl (addTs_subset as h2)
      · exact Or.inr h2
    · exact ih h1

theorem addTs_nodup {seen : List RType} (l : List RType) :
    ∀ {pending : List RType}, pending.Nodup → (addTs seen pending l).Nodup := by
  induction l with
  | nil => intro pending h; exact h
  | cons a as ih => intro pending h; exact ih (addT_nodup h)

theorem addTs_not_seen {seen : List RType} (l : List RType) :
    ∀ {pending : List RType}, (∀ u ∈ pending, u ∉ seen) →
      ∀ u ∈ addTs seen pending l, u ∉ seen := by
  induction l with
  | nil => intro pending h; exact h
  | cons a as ih => intro pending h; exact ih (addT_not_seen h)

theorem popLast_eq_some :
    ∀ (l rest : List RType) (t : RType), popLast l = some (rest, t) → l = rest ++ [t] := by
  intro l
  induction l with
  | nil => intro rest t h; simp [popLast] at h
  | cons a as ih =>
    intro rest t h
    cases as with
    | nil =>
      simp only [popLast] at h
      cases h
      rfl
    | cons b bs =>
      simp only [popLast] at h
      rcases hp : popLast (b :: bs) with _ | ⟨r2, t2⟩ <;> simp only [hp] at h
      · exact Option.noConfusion h
      · have hbs := ih r2 t2 hp
        cases h
        rw [hbs]
        rfl

theorem popLast_none : ∀ l : List RType, popLast l = none → l = [] := by
  intro l
  induction l with
  | nil => intro _; rfl
  | cons a as ih =>
    intro h
    cases as with
    | nil => simp [popLast] at h
    | cons b bs =>
      simp only [popLast] at h
      rcases hp : popLast (b :: bs) with _ | p <;> simp only [hp] at h
      · exact absurd (ih hp) (by simp)
      · exact Option.noConfusion h

/-! ### `runStep` inversion -/

theorem runStep_idle_inv {ε : Type} {em : Emitters ε} {g : GenState}
    (h : runStep em g = .idle) : g.typesUnseen = [] := by
  unfold runStep at h
  rcases hp : popLast g.typesUnseen with _ | ⟨rest, t⟩ <;> simp only [hp] at h
  · exact popLast_none _ hp
  · rcases hd : em.dec t with e | ⟨ds, ch⟩ <;> simp only [hd] at h
    · exact StepRes.noConfusion h
    · rcases he : em.enc t with e | ⟨es, ch2⟩ <;> simp only [he] at h
      · exact StepRes.noConfusion h
      · split at h
        · rcases hmar : em.mar t with e | mch <;> simp only [hmar] at h
          · exact StepRes.noConfusion h
          · rcases hun : em.unmar t with e | uch <;> simp only [hun] at h
            · exact StepRes.noConfusion h
            · exact StepRes.noConfusion h
        · exact StepRes.noConfusion h

theorem runStep_next_inv {ε : Type} {em : Emitters ε} {g g' : GenState} {tr : List Ev}
    (h : runStep em g = .next tr g') :
    ∃ rest t ds ch es ch2,
      g.typesUnseen = rest ++ [t] ∧
      em.dec t = .ok (ds, ch) ∧ em.enc t = .ok (es, ch2) ∧
      ((t ∈ g.marshallers ∧ tr = [.pop t, .dec t, .enc t, .mar t, .unmar t]) ∨
        (t ∉ g.marshallers ∧ tr = [.pop t, .dec t, .enc t])) ∧
      g'.typesSeen = pushSeen g.typesSeen t ∧
      g'.marshallers = g.marshallers ∧
      g'.typesUnseen =
        addTs (pushSeen g.typesSeen t) (addTs (pushSeen g.typesSeen t) rest ds) es := by
  unfold runStep at h
  rcases hp : popLast g.typesUnseen with _ | ⟨rest, t⟩ <;> simp only [hp] at h
  · exact StepRes.noConfusion h
  · rcases hd : em.dec t with e | ⟨ds, ch⟩ <;> simp only [hd] at h
    · exact StepRes.noConfusion h
    · rcases he : em.enc t with e | ⟨es, ch2⟩ <;> simp only [he] at h
      · exact StepRes.noConfusion h
      · simp only [addTypes_eq, markSeen] at h
        split at h
        · next hcond =>
          have hm : t ∈ g.marshallers := by simpa using hcond
          rcases hmar : em.mar t with e | mch <;> simp only [hmar] at h
          · exact StepRes.noConfusion h
          · rcases hun : em.unmar t with e | uch <;> simp only [hun] at h
            · exact StepRes.noConfusion h
            · cases h
              exact ⟨rest, t, ds, ch, es, ch2, popLast_eq_some _ _ _ hp, hd, he,
                Or.inl ⟨hm, rfl⟩, rfl, rfl, rfl⟩
        · next hcond =>
          have hm : t ∉ g.marshallers := by simpa using hcond
          cases h
          exact ⟨rest, t, ds, ch, es, ch2, popLast_eq_some _ _ _ hp, hd, he,
            Or.inr ⟨hm, rfl⟩, rfl, rfl, rfl⟩

theorem runStep_fail_inv {ε : Type} {em : Emitters ε} {g : GenState} {tr : List Ev} {e : ε}
    (h : runStep em g = .fail tr e) :
    ∃ rest t,
      g.typesUnseen = rest ++ [t] ∧
      ((em.dec t = .error e ∧ tr = [.pop t, .dec t]) ∨
       (∃ dch, em.dec t = .ok dch ∧ em.enc t = .error e ∧ tr = [.pop t, .dec t, .enc t]) ∨
       (∃ dch ech, em.dec t = .ok dch ∧ em.enc t = .ok ech ∧ t ∈ g.marshallers ∧
         em.mar t = .error e ∧ tr = [.pop t, .dec t, .enc t, .mar t]) ∨
       (∃ dch ech mch, em.dec t = .ok dch ∧ em.enc t = .ok ech ∧ t ∈ g.marshallers ∧
         em.mar t = .ok mch ∧ em.unmar t = .error e ∧
         tr = [.pop t, .dec t, .enc t, .mar t, .unmar t])) := by
  unfold runStep at h
  rcases hp : popLast g.typesUnseen with _ | ⟨rest, t⟩ <;> simp only [hp] at h
  · exact StepRes.noConfusion h
  · rcases hd : em.dec t with e0 | ⟨ds, ch⟩ <;> simp only [hd] at h
    · cases h
      exact ⟨rest, t, popLast_eq_some _ _ _ hp, Or.inl ⟨hd, rfl⟩⟩
    · rcases he : em.enc t with e0 | ⟨es, ch2⟩ <;> simp only [he] at h
      · cases h
        exact ⟨rest, t, popLast_eq_some _ _ _ hp, Or.inr (Or.inl ⟨(ds, ch), hd, he, rfl⟩)⟩
      · simp only [addTypes_eq, markSeen] at h
        split at h
        · next hcond =>
          have hm : t ∈ g.marshallers := by simpa using hcond
          rcases hmar : em.mar t with e0 | mch <;> simp only [hmar] at h
          · cases h
            exact ⟨rest, t, popLast_eq_some _ _ _ hp,
              Or.inr (Or.inr (Or.inl ⟨(ds, ch), (es, ch2), hd, he, hm, hmar, rfl⟩))⟩
          · rcases hun : em.unmar t with e0 | uch <;> simp only [hun] at h
            · cases h
              exact ⟨rest, t, popLast_eq_some _ _ _ hp,
                Or.inr (Or.inr (Or.inr ⟨(ds, ch), (es, ch2), mch, hd, he, hm, hmar, hun, rfl⟩))⟩
            · exact StepRes.noConfusion h
        · exact StepRes.noConfusion h

/-! ### Traversal invariants -/

/-- The worklist invariant: the pending list has no duplicates and no
type is simultaneously pending and seen. -/
def WorkInv (g : GenState) : Prop :=
  g.typesUnseen.Nodup ∧ ∀ u ∈ g.typesUnseen, u ∉ g.typesSeen

/-- Every seen type has all its discovered nested types recorded (seen or
pending). -/
def ClosInv {ε : Type} (em : Emitters ε) (g : GenState) : Prop :=
  ∀ t ∈ g.typesSeen, ∀ u ∈ discovered em t, u ∈ g.typesSeen ∨ u ∈ g.typesUnseen

/-- Everything seen or pending is reachable from the seed list. -/
def ReachInv {ε : Type} (em : Emitters ε) (init : List RType) (g : GenState) : Prop :=
  (∀ u ∈ g.typesUnseen, Reach em init u) ∧ (∀ u ∈ g.typesSeen, Reach em init u)

/-- The seed types stay recorded (seen or pending). -/
def SubInv (init : List RType) (g : GenState) : Prop :=
  ∀ u ∈ init, u ∈ g.typesSeen ∨ u ∈ g.typesUnseen

theorem rest_facts {g : GenState} {rest : List RType} {t : RType}
    (hw : WorkInv g) (hp : g.typesUnseen = rest ++ [t]) :
    rest.Nodup ∧ t ∉ rest ∧ t ∈ g.typesUnseen ∧ (∀ u ∈ rest, u ∈ g.typesUnseen) := by
  have hnd := hw.1
  rw [hp] at hnd
  rw [List.nodup_append] at hnd
  refine ⟨hnd.1, ?_, ?_, ?_⟩
  · intro hmem
    exact hnd.2.2 hmem (by simp)
  · rw [hp]
    exact List.mem_append_right _ (by simp)
  · intro u hu
    rw [hp]
    exact List.mem_append_left _ hu

theorem step_WorkInv {ε : Type} {em : Emitters ε} {g g' : GenState} {tr : List Ev}
    (h : runStep em g = .next tr g') (hw : WorkInv g) : WorkInv g' := by
  rcases runStep_next_inv h with ⟨rest, t, ds, ch, es, ch2, hp, _, _, _, hseen, _, hunseen⟩
  rcases rest_facts hw hp with ⟨hndrest, htrest, _, hrestmem⟩
  constructor
  · rw [hunseen]
    exact addTs_nodup _ (addTs_nodup _ hndrest)
  · intro u hu
    rw [hseen]
    rw [hunseen] at hu
    refine addTs_not_seen _ (addTs_not_seen _ ?_) u hu
    intro v hv
    rw [mem_pushSeen]
    rintro (hvs | rfl)
    · exact hw.2 v (hrestmem v hv) hvs
    · exact htrest hv

theorem step_ClosInv {ε : Type} {em : Emitters ε} {g g' : GenState} {tr : List Ev}
    (h : runStep em g = .next tr g') (hw : WorkInv g) (hc : ClosInv em g) : ClosInv em g' := by
  rcases runStep_next_inv h with ⟨rest, t, ds, ch, es, ch2, hp, hd, he, _, hseen, _, hunseen⟩
  rcases rest_facts hw hp with ⟨_, _, htmem, hrestmem⟩
  intro s hs u hu
  rw [hseen] at hs
  rw [hseen, hunseen]
  have hdis : discovered em t = ds ++ es := by
    unfold discovered
    rw [hd, he]
  rcases mem_pushSeen.mp hs with hs1 | rfl
  · -- an old seen type: its discoveries were already seen or pending
    rcases hc s hs1 u hu with h1 | h1
    · exact Or.inl (mem_pushSeen.mpr (Or.inl h1))
    · rw [hp] at h1
      rcases List.mem_append.mp h1 with h2 | h2
      · exact Or.inr (addTs_subset _ (addTs_subset _ h2))
      · simp at h2
        exact Or.inl (h2 ▸ self_mem_pushSeen _ _)
  · -- the newly seen type: its discoveries were just requested
    rw [hdis] at hu
    rcases List.mem_append.mp hu with h1 | h1
    · rcases addTs_covered ds h1 with h2 | h2
      · exact Or.inr (addTs_subset _ h2)
      · exact Or.inl h2
    · rcases @addTs_covered (pushSeen g.typesSeen s) es (addTs (pushSeen g.typesSeen s) rest ds) u h1 with h2 | h2
      · exact Or.inr h2
      · exact Or.inl h2

theorem step_ReachInv {ε : Type} {em : Emitters ε} {init : List RType}
    {g g' : GenState} {tr : List Ev}
    (h : runStep em g = .next tr g') (hr : ReachInv em init g) : ReachInv em init g' := by
  rcases runStep_next_inv h with ⟨rest, t, ds, ch, es, ch2, hp, hd, he, _, hseen, _, hunseen⟩
  have htmem : t ∈ g.typesUnseen := by
    rw [hp]
    exact List.mem_append_right _ (by simp)
  have hreacht : Reach em init t := hr.1 t htmem
  have hdis : discovered em t = ds ++ es := by
    unfold discovered
    rw [hd, he]
  have hdisc : ∀ u, u ∈ ds ∨ u ∈ es → Reach em init u := by
    intro u hu
    refine Reach.step t u hreacht ?_
    rw [hdis]
    rcases hu with hu | hu
    · exact List.mem_append_left _ hu
    · exact List.mem_append_right _ hu
  constructor
  · intro u hu
    rw [hunseen] at hu
    rcases addTs_mem_or _ hu with h1 | h1
    · rcases addTs_mem_or _ h1 with h2 | h2
      · exact hr.1 u (by rw [hp]; exact List.mem_append_left _ h2)
      · exact hdisc u (Or.inl h2)
    · exact hdisc u (Or.inr h1)
  · intro u hu
    rw [hseen] at hu
    rcases mem_pushSeen.mp hu with h1 | rfl
    · exact hr.2 u h1
    · exact hreacht

theorem step_SubInv {ε : Type} {em : Emitters ε} {init : List RType}
    {g g' : GenState} {tr : List Ev}
    (h : runStep em g = .next tr g') (hs : SubInv init g) : SubInv init g' := by
  rcases runStep_next_inv h with ⟨rest, t, ds, ch, es, ch2, hp, _, _, _, hseen, _, hunseen⟩
  intro u hu
  rcases hs u hu with h1 | h1
  · exact Or.inl (by rw [hseen]; exact mem_pushSeen.mpr (Or.inl h1))
  · rw [hp] at h1
    rcases List.mem_append.mp h1 with h2 | h2
    · exact Or.inr (by rw [hunseen]; exact addTs_subset _ (addTs_subset _ h2))
    · simp at h2
      exact Or.inl (by rw [hseen, h2]; exact self_mem_pushSeen _ _)

theorem pops_append (a b : List Ev) : pops (a ++ b) = pops a ++ pops b := by
  unfold pops
  exact List.filterMap_append a b _

theorem pops_step_shape {t : RType} {tr1 : List Ev}
    (h : (tr1 = [.pop t, .dec t, .enc t, .mar t, .unmar t]) ∨ (tr1 = [.pop t, .dec t, .enc t])) :
    pops tr1 = [t] := by
  rcases h with rfl | rfl <;> rfl

/-- Master induction over a completed (`done`) run of the worklist loop. -/
theorem runLoop_done_all {ε : Type} (em : Emitters ε) (init : List RType) :
    ∀ (fuel : Nat) (g gf : GenState) (tr : List Ev),
      runLoop em fuel g = (tr, .done gf) →
      WorkInv g → ClosInv em g → SubInv init g → ReachInv em init g →
      gf.typesUnseen = [] ∧
      gf.marshallers = g.marshallers ∧
      (∀ u, u ∈ gf.typesSeen ↔ (u ∈ g.typesSeen ∨ u ∈ pops tr)) ∧
      (pops tr).Nodup ∧
      (∀ u ∈ pops tr, u ∉ g.typesSeen) ∧
      (∀ u ∈ pops tr, Reach em init u) ∧
      ClosInv em gf ∧ SubInv init gf := by
  intro fuel
  induction fuel with
  | zero =>
    intro g gf tr h _ _ _ _
    simp only [runLoop] at h
    exact absurd (congrArg Prod.snd h) (by simp)
  | succ fuel ih =>
    intro g gf tr h hw hc hs hr
    rcases hstep : runStep em g with _ | ⟨tr1, e⟩ | ⟨tr1, g1⟩ <;> simp only [runLoop, hstep] at h
    · -- idle: the fixed point was already reached
      have htr : tr = [] := (congrArg Prod.fst h).symm
      have hgf : gf = g := by
        have := congrArg Prod.snd h
        simp at this
        exact this.symm
      subst htr
      subst hgf
      have hpend := runStep_idle_inv hstep
      refine ⟨hpend, rfl, ?_, by simp [pops], by simp [pops], by simp [pops], hc, hs⟩
      intro u
      simp [pops]
    · exact absurd (congrArg Prod.snd h) (by simp)
    · rcases hrec : runLoop em fuel g1 with ⟨tr2, r⟩
      rw [hrec] at h
      have htr : tr = tr1 ++ tr2 := (congrArg Prod.fst h).symm
      have hres : r = .done gf := by
        have := congrArg Prod.snd h
        simpa using this
      subst htr
      subst hres
      have hw1 := step_WorkInv hstep hw
      have hc1 := step_ClosInv hstep hw hc
      have hs1 : SubInv init g1 := step_SubInv hstep hs
      have hr1 : ReachInv em init g1 := step_ReachInv hstep hr
      rcases ih g1 gf tr2 hrec hw1 hc1 hs1 hr1 with
        ⟨ihA, ihM, ihB, ihN, ihS, ihR, ihC, ihSub⟩
      rcases runStep_next_inv hstep with
        ⟨rest, t, ds, ch, es, ch2, hp, hd, he, hshape, hseen, hmarsh, hunseen⟩
      have hps : pops tr1 = [t] := pops_step_shape (by
        rcases hshape with ⟨_, h1⟩ | ⟨_, h1⟩
        · exact Or.inl h1
        · exact Or.inr h1)
      have hppapp : pops (tr1 ++ tr2) = t :: pops tr2 := by
        rw [pops_append, hps]
        rfl
      have htpend : t ∈ g.typesUnseen := by
        rw [hp]
        exact List.mem_append_right _ (by simp)
      have htnotseen : t ∉ g.typesSeen := hw.2 t htpend
      have htseen1 : t ∈ g1.typesSeen := by
        rw [hseen]
        exact self_mem_pushSeen _ _
      refine ⟨ihA, by rw [ihM, hmarsh], ?_, ?_, ?_, ?_, ihC, ihSub⟩
      · intro u
        rw [hppapp]
        rw [ihB u, hseen, mem_pushSeen]
        constructor
        · rintro ((h1 | rfl) | h1)
          · exact Or.inl h1
          · exact Or.inr (by simp)
          · exact Or.inr (List.mem_cons_of_mem _ h1)
        · rintro (h1 | h1)
          · exact Or.inl (Or.inl h1)
          · rcases List.mem_cons.mp h1 with rfl | h2
            · exact Or.inl (Or.inr rfl)
            · exact Or.inr h2
      · rw [hppapp]
        rw [List.nodup_cons]
        exact ⟨fun hmem => ihS t hmem htseen1, ihN⟩
      · intro u hu
        rw [hppapp] at hu
        rcases List.mem_cons.mp hu with rfl | h1
        · exact htnotseen
        · intro hus
          exact ihS u h1 (by rw [hseen]; exact mem_pushSeen.mpr (Or.inl hus))
      · intro u hu
        rw [hppapp] at hu
        rcases List.mem_cons.mp hu with rfl | h1
        · exact hr.1 u htpend
        · exact ihR u h1

/-- At the fixed point the seen set is closed under discovery and
contains the seeds, hence all reachable types. -/
theorem reach_subset_seen {ε : Type} {em : Emitters ε} {init : List RType} {gf : GenState}
    (hpend : gf.typesUnseen = []) (hclos : ClosInv em gf) (hsub : SubInv init gf) :
    ∀ u, Reach em init u → u ∈ gf.typesSeen := by
  intro u hr
  induction hr with
  | base t ht =>
    rcases hsub t ht with h | h
    · exact h
    · rw [hpend] at h
      simp at h
  | step t u _ hu ih =>
    rcases hclos t ih u hu with h | h
    · exact h
    · rw [hpend] at h
      simp at h

/-! ### Registration facts and the fixed-point theorem -/

theorem applyOp_typesSeen (g : GenState) (op : RegOp) :
    (applyOp g op).typesSeen = g.typesSeen := by
  cases op with
  | req t =>
    show (addType g t).typesSeen = g.typesSeen
    rw [addType_eq]
  | top t =>
    show (addTop g t).typesSeen = g.typesSeen
    unfold addTop
    rw [addType_eq]

theorem addType_WorkInv {g : GenState} (t : RType) (hw : WorkInv g) : WorkInv (addType g t) := by
  rw [addType_eq]
  exact ⟨addT_nodup hw.1, addT_not_seen hw.2⟩

theorem applyOp_WorkInv {g : GenState} (op : RegOp) (hw : WorkInv g) : WorkInv (applyOp g op) := by
  cases op with
  | req t => exact addType_WorkInv t hw
  | top t =>
    show WorkInv (addTop g t)
    unfold addTop
    rcases addType_WorkInv t hw with ⟨k1, k2⟩
    exact ⟨k1, k2⟩

/-- During registration the seen set stays empty and every
marshaller-requested type is on the worklist. -/
def RegInv (g : GenState) : Prop :=
  g.typesSeen = [] ∧ ∀ u ∈ g.marshallers, u ∈ g.typesUnseen

theorem applyOp_RegInv {g : GenState} (op : RegOp) (hri : RegInv g) : RegInv (applyOp g op) := by
  have hseen : (applyOp g op).typesSeen = g.typesSeen := applyOp_typesSeen g op
  cases op with
  | req t =>
    refine ⟨by rw [hseen, hri.1], ?_⟩
    intro u hu
    have hu2 : u ∈ g.marshallers := by
      revert hu
      show u ∈ (addType g t).marshallers → _
      rw [addType_eq]
      exact id
    show u ∈ (addType g t).typesUnseen
    rw [addType_eq]
    exact addT_subset (hri.2 u hu2)
  | top t =>
    refine ⟨by rw [hseen, hri.1], ?_⟩
    intro u hu
    show u ∈ (addTop g t).typesUnseen
    unfold addTop
    rw [addType_eq]
    show u ∈ addT g.typesSeen g.typesUnseen t
    have hmem : u ∈ g.marshallers ∨ u = t := by
      revert hu
      show u ∈ (if t ∈ (addType g t).marshallers then (addType g t).marshallers
        else (addType g t).marshallers ++ [t]) → _
      rw [addType_eq]
      show u ∈ (if t ∈ g.marshallers then g.marshallers else g.marshallers ++ [t]) → _
      split
      · exact Or.inl
      · intro hu
        rcases List.mem_append.mp hu with h1 | h1
        · exact Or.inl h1
        · simp at h1
          exact Or.inr h1
    rcases hmem with h1 | rfl
    · exact addT_subset (hri.2 u h1)
    · rcases addT_covered g.typesSeen g.typesUnseen u with h2 | h2
      · exact h2
      · rw [hri.1] at h2
        simp at h2

theorem applyOps_RegInv (ops : List RegOp) :
    ∀ g : GenState, RegInv g → RegInv (applyOps g ops) := by
  induction ops with
  | nil => intro g h; exact h
  | cons op os ih => intro g h; exact ih _ (applyOp_RegInv op h)

theorem applyOps_WorkInv (ops : List RegOp) :
    ∀ g : GenState, WorkInv g → WorkInv (applyOps g ops) := by
  induction ops with
  | nil => intro g h; exact h
  | cons op os ih => intro g h; exact ih _ (applyOp_WorkInv op h)

theorem newGenerator_RegInv : RegInv newGenerator := ⟨rfl, by intro u hu; simp [newGenerator] at hu⟩

theorem newGenerator_WorkInv : WorkInv newGenerator :=
  ⟨List.nodup_nil, by intro u hu; simp [newGenerator] at hu⟩

theorem addType_noop (g : GenState) (u : RType)
    (h : u ∈ g.typesSeen ∨ u ∈ g.typesUnseen) : addType g u = g := by
  unfold addType
  rcases h with h1 | h1
  · rw [if_pos h1]
  · by_cases h2 : u ∈ g.typesSeen
    · rw [if_pos h2]
    · rw [if_neg h2, if_pos h1]

theorem count_step_shape {t u : RType} {tr1 : List Ev}
    (h : (tr1 = [.pop t, .dec t, .enc t, .mar t, .unmar t]) ∨ (tr1 = [.pop t, .dec t, .enc t])) :
    tr1.count (Ev.dec u) = tr1.count (Ev.pop u) ∧
      tr1.count (Ev.enc u) = tr1.count (Ev.pop u) := by
  rcases h with rfl | rfl <;> by_cases hu : u = t <;>
    simp [hu, List.count_cons, List.count_nil]

/-- In a completed run each popped type gets exactly one decoder and one
encoder emission (trace event counts agree). -/
theorem runLoop_done_counts {ε : Type} (em : Emitters ε) :
    ∀ (fuel : Nat) (g gf : GenState) (tr : List Ev),
      runLoop em fuel g = (tr, .done gf) →
      ∀ u, tr.count (Ev.dec u) = tr.count (Ev.pop u) ∧
        tr.count (Ev.enc u) = tr.count (Ev.pop u) := by
  intro fuel
  induction fuel with
  | zero =>
    intro g gf tr h u
    simp only [runLoop] at h
    exact absurd (congrArg Prod.snd h) (by simp)
  | succ fuel ih =>
    intro g gf tr h u
    rcases hstep : runStep em g with _ | ⟨tr1, e⟩ | ⟨tr1, g1⟩ <;> simp only [runLoop, hstep] at h
    · have htr : tr = [] := (congrArg Prod.fst h).symm
      subst htr
      simp
    · exact absurd (congrArg Prod.snd h) (by simp)
    · rcases hrec : runLoop em fuel g1 with ⟨tr2, r⟩
      rw [hrec] at h
      have htr : tr = tr1 ++ tr2 := (congrArg Prod.fst h).symm
      have hres : r = .done gf := by
        have := congrArg Prod.snd h
        simpa using this
      subst htr
      subst hres
      rcases runStep_next_inv hstep with ⟨rest, t, ds, ch, es, ch2, _, _, _, hshape, _, _, _⟩
      have hsh : (tr1 = [.pop t, .dec t, .enc t, .mar t, .unmar t]) ∨
          (tr1 = [.pop t, .dec t, .enc t]) := by
        rcases hshape with ⟨_, h1⟩ | ⟨_, h1⟩
        · exact Or.inl h1
        · exact Or.inr h1
      rcases count_step_shape (u := u) hsh with ⟨cd, ce⟩
      rcases ih g1 gf tr2 hrec u with ⟨id2, ie2⟩
      constructor
      · rw [List.count_append, List.count_append, cd, id2]
      · rw [List.count_append, List.count_append, ce, ie2]

/-- C3: over any registration sequence, a completed run visits every
reachable type exactly once (no duplicates, no omissions, one decoder and
one encoder emission per visit), a registration call never re-enqueues a
seen or pending type, the pending/seen sets stay disjoint throughout, and
the loop ends only with an empty worklist. -/
theorem runToFixedPoint_visits_once {ε : Type} (ops : List RegOp) (em : Emitters ε)
    (fuel : Nat) (gf : GenState) (tr : List Ev)
    (h : runLoop em fuel (applyOps newGenerator ops) = (tr, .done gf)) :
    gf.typesUnseen = [] ∧
    (pops tr).Nodup ∧
    (∀ u, Reach em (applyOps newGenerator ops).typesUnseen u ↔ u ∈ pops tr) ∧
    (∀ u, u ∈ gf.typesSeen ↔ u ∈ pops tr) ∧
    (∀ u, tr.count (Ev.dec u) = tr.count (Ev.pop u) ∧
      tr.count (Ev.enc u) = tr.count (Ev.pop u)) ∧
    (∀ (g1 : GenState) (u : RType), u ∈ g1.typesSeen ∨ u ∈ g1.typesUnseen →
      addType g1 u = g1) ∧
    WorkInv (applyOps newGenerator ops) ∧
    (∀ (g1 g2 : GenState) (tr1 : List Ev), WorkInv g1 → runStep em g1 = .next tr1 g2 →
      WorkInv g2) := by
  set g0 := applyOps newGenerator ops with hg0
  have hreg : RegInv g0 := applyOps_RegInv ops newGenerator newGenerator_RegInv
  have hw0 : WorkInv g0 := applyOps_WorkInv ops newGenerator newGenerator_WorkInv
  have hc0 : ClosInv em g0 := by
    intro t ht
    rw [hreg.1] at ht
    simp at ht
  have hs0 : SubInv g0.typesUnseen g0 := fun u hu => Or.inr hu
  have hr0 : ReachInv em g0.typesUnseen g0 := by
    constructor
    · intro u hu
      exact Reach.base u hu
    · intro u hu
      rw [hreg.1] at hu
      simp at hu
  rcases runLoop_done_all em g0.typesUnseen fuel g0 gf tr h hw0 hc0 hs0 hr0 with
    ⟨hA, _, hB, hN, hS, hR, hC, hSub⟩
  have hcomplete : ∀ u, Reach em g0.typesUnseen u → u ∈ pops tr := by
    intro u hu
    have := reach_subset_seen hA hC hSub u hu
    rcases (hB u).mp this with h1 | h1
    · rw [hreg.1] at h1
      simp at h1
    · exact h1
  refine ⟨hA, hN, ?_, ?_, ?_, addType_noop, hw0, fun g1 g2 tr1 hw1 hst => step_WorkInv hst hw1⟩
  · intro u
    exact ⟨hcomplete u, hR u⟩
  · intro u
    rw [hB u, hreg.1]
    simp
  · intro u
    exact runLoop_done_counts em fuel g0 gf tr h u

/-! ### Marshaller events: soundness and completeness (C6) -/

theorem pops_mem {u : RType} {tr : List Ev} : u ∈ pops tr ↔ Ev.pop u ∈ tr := by
  unfold pops
  rw [List.mem_filterMap]
  constructor
  · rintro ⟨ev, hev, hsome⟩
    cases ev with
    | pop t =>
      have ht : t = u := by simpa using hsome
      exact ht ▸ hev
    | dec t => simp at hsome
    | enc t => simp at hsome
    | mar t => simp at hsome
    | unmar t => simp at hsome
  · intro h
    exact ⟨Ev.pop u, h, rfl⟩

theorem runLoop_done_mar_sound {ε : Type} (em : Emitters ε) :
    ∀ (fuel : Nat) (g gf : GenState) (tr : List Ev),
      runLoop em fuel g = (tr, .done gf) →
      ∀ u, (Ev.mar u ∈ tr → u ∈ g.marshallers) ∧ (Ev.unmar u ∈ tr → u ∈ g.marshallers) := by
  intro fuel
  induction fuel with
  | zero =>
    intro g gf tr h u
    simp only [runLoop] at h
    exact absurd (congrArg Prod.snd h) (by simp)
  | succ fuel ih =>
    intro g gf tr h u
    rcases hstep : runStep em g with _ | ⟨tr1, e⟩ | ⟨tr1, g1⟩ <;> simp only [runLoop, hstep] at h
    · have htr : tr = [] := (congrArg Prod.fst h).symm
      subst htr
      simp
    · exact absurd (congrArg Prod.snd h) (by simp)
    · rcases hrec : runLoop em fuel g1 with ⟨tr2, r⟩
      rw [hrec] at h
      have htr : tr = tr1 ++ tr2 := (congrArg Prod.fst h).symm
      have hres : r = .done gf := by simpa using congrArg Prod.snd h
      subst htr
      subst hres
      rcases runStep_next_inv hstep with ⟨rest, t, _, _, _, _, _, _, _, hshape, _, hmarsh, _⟩
      have ihu := ih g1 gf tr2 hrec u
      constructor
      · intro hmem
        rcases List.mem_append.mp hmem with h1 | h1
        · rcases hshape with ⟨hm, rfl⟩ | ⟨_, rfl⟩
          · simp at h1
            exact h1 ▸ hm
          · simp at h1
        · exact hmarsh ▸ ihu.1 h1
      · intro hmem
        rcases List.mem_append.mp hmem with h1 | h1
        · rcases hshape with ⟨hm, rfl⟩ | ⟨_, rfl⟩
          · simp at h1
            exact h1 ▸ hm
          · simp at h1
        · exact hmarsh ▸ ihu.2 h1

theorem runLoop_done_pop_events {ε : Type} (em : Emitters ε) :
    ∀ (fuel : Nat) (g gf : GenState) (tr : List Ev),
      runLoop em fuel g = (tr, .done gf) →
      ∀ u, Ev.pop u ∈ tr →
        Ev.dec u ∈ tr ∧ Ev.enc u ∈ tr ∧
          (u ∈ g.marshallers → Ev.mar u ∈ tr ∧ Ev.unmar u ∈ tr) := by
  intro fuel
  induction fuel with
  | zero =>
    intro g gf tr h u _
    simp only [runLoop] at h
    exact absurd (congrArg Prod.snd h) (by simp)
  | succ fuel ih =>
    intro g gf tr h u hpop
    rcases hstep : runStep em g with _ | ⟨tr1, e⟩ | ⟨tr1, g1⟩ <;> simp only [runLoop, hstep] at h
    · have htr : tr = [] := (congrArg Prod.fst h).symm
      subst htr
      simp at hpop
    · exact absurd (congrArg Prod.snd h) (by simp)
    · rcases hrec : runLoop em fuel g1 with ⟨tr2, r⟩
      rw [hrec] at h
      have htr : tr = tr1 ++ tr2 := (congrArg Prod.fst h).symm
      have hres : r = .done gf := by simpa using congrArg Prod.snd h
      subst htr
      subst hres
      rcases runStep_next_inv hstep with ⟨rest, t, _, _, _, _, _, _, _, hshape, _, hmarsh, _⟩
      rcases List.mem_append.mp hpop with h1 | h1
      · have hut : u = t := by
          rcases hshape with ⟨_, rfl⟩ | ⟨_, rfl⟩ <;> simpa using h1
        subst hut
        rcases hshape with ⟨hm, rfl⟩ | ⟨hm, rfl⟩
        · exact ⟨List.mem_append_left _ (by simp), List.mem_append_left _ (by simp),
            fun _ => ⟨List.mem_append_left _ (by simp), List.mem_append_left _ (by simp)⟩⟩
        · refine ⟨List.mem_append_left _ (by simp), List.mem_append_left _ (by simp), ?_⟩
          intro hmem
          exact absurd hmem hm
      · rcases ih g1 gf tr2 hrec u h1 with ⟨ih1, ih2, ih3⟩
        refine ⟨List.mem_append_right _ ih1, List.mem_append_right _ ih2, ?_⟩
        intro hmem
        rcases ih3 (hmarsh ▸ hmem) with ⟨j1, j2⟩
        exact ⟨List.mem_append_right _ j1, List.mem_append_right _ j2⟩

/-! ### Fixtures for concrete runs -/

def tA : RType := { name := "A", pkgPath := "pkg", str := "pkg.A" }

def tB : RType := { name := "B", pkgPath := "pkg", str := "pkg.B" }

/-- Modelled from the spec: collaborators for a two-type scenario where
`A`, requested top-level, has a field of nested type `B`. -/
def emFix : Emitters String :=
  { dec := fun t => .ok ((if t = tA then [tB] else []), "dec " ++ t.name ++ ";"),
    enc := fun t => .ok ([], "enc " ++ t.name ++ ";"),
    mar := fun t => .ok ("mar " ++ t.name ++ ";"),
    unmar := fun t => .ok ("unmar " ++ t.name ++ ";") }

def trFix : List Ev :=
  [.pop tA, .dec tA, .enc tA, .mar tA, .unmar tA, .pop tB, .dec tB, .enc tB]

def gfFix : GenState :=
  { out := "dec A;enc A;mar A;unmar A;dec B;enc B;", pkgName := "", pkgPath := "",
    buildTags := "", varCounter := 0, omitEmpty := false,
    imports := [(pkgWriter, "jwriter"), (pkgLexer, "jlexer"), ("encoding/json", "json")],
    marshallers := [tA], typesSeen := [tA, tB], typesUnseen := [], functionNames := [] }

theorem runToFixedPoint_visits_once_witness :
    gfFix.typesUnseen = [] ∧ (pops trFix).Nodup ∧ tB ∈ pops trFix :=
  have h : runLoop emFix 3 (applyOps newGenerator [RegOp.top tA]) = (trFix, .done gfFix) := by
    decide
  ⟨(runToFixedPoint_visits_once [RegOp.top tA] emFix 3 gfFix trFix h).1,
   (runToFixedPoint_visits_once [RegOp.top tA] emFix 3 gfFix trFix h).2.1,
   ((runToFixedPoint_visits_once [RegOp.top tA] emFix 3 gfFix trFix h).2.2.1 tB).mp
     (Reach.step tA tB (Reach.base tA (by decide)) (by decide))⟩

/-- C6: in a completed run, marshaller and unmarshaller emission happens
exactly for the types in the marshaller-request set; a type discovered
only as a nested field gets its decoder and encoder helpers but never an
entry-point marshaller or unmarshaller. -/
theorem nested_types_no_entry_points {ε : Type} (ops : List RegOp) (em : Emitters ε)
    (fuel : Nat) (gf : GenState) (tr : List Ev)
    (h : runLoop em fuel (applyOps newGenerator ops) = (tr, .done gf)) :
    ∀ u, (Ev.mar u ∈ tr ↔ u ∈ (applyOps newGenerator ops).marshallers) ∧
      (Ev.unmar u ∈ tr ↔ u ∈ (applyOps newGenerator ops).marshallers) ∧
      (u ∉ (applyOps newGenerator ops).marshallers → Ev.pop u ∈ tr →
        (Ev.dec u ∈ tr ∧ Ev.enc u ∈ tr ∧ Ev.mar u ∉ tr ∧ Ev.unmar u ∉ tr)) := by
  set g0 := applyOps newGenerator ops with hg0
  have hreg : RegInv g0 := applyOps_RegInv ops newGenerator newGenerator_RegInv
  have hw0 : WorkInv g0 := applyOps_WorkInv ops newGenerator newGenerator_WorkInv
  have hc0 : ClosInv em g0 := by
    intro t ht
    rw [hreg.1] at ht
    simp at ht
  have hs0 : SubInv g0.typesUnseen g0 := fun u hu => Or.inr hu
  have hr0 : ReachInv em g0.typesUnseen g0 := by
    constructor
    · intro u hu
      exact Reach.base u hu
    · intro u hu
      rw [hreg.1] at hu
      simp at hu
  rcases runLoop_done_all em g0.typesUnseen fuel g0 gf tr h hw0 hc0 hs0 hr0 with
    ⟨hA, _, hB, _, _, _, hC, hSub⟩
  have hcomplete : ∀ u, u ∈ g0.typesUnseen → Ev.pop u ∈ tr := by
    intro u hu
    have hseen := reach_subset_seen hA hC hSub u (Reach.base u hu)
    rcases (hB u).mp hseen with h1 | h1
    · rw [hreg.1] at h1
      simp at h1
    · exact pops_mem.mp h1
  have hsound := runLoop_done_mar_sound em fuel g0 gf tr h
  have hpopev := runLoop_done_pop_events em fuel g0 gf tr h
  intro u
  refine ⟨⟨fun hm => (hsound u).1 hm, ?_⟩, ⟨fun hm => (hsound u).2 hm, ?_⟩, ?_⟩
  · intro hmem
    exact ((hpopev u (hcomplete u (hreg.2 u hmem))).2.2 hmem).1
  · intro hmem
    exact ((hpopev u (hcomplete u (hreg.2 u hmem))).2.2 hmem).2
  · intro hnot hpop
    rcases hpopev u hpop with ⟨h1, h2, _⟩
    exact ⟨h1, h2, fun hm => hnot ((hsound u).1 hm), fun hm => hnot ((hsound u).2 hm)⟩

def trFix6 : List Ev :=
  [.pop tA, .dec tA, .enc tA, .mar tA, .unmar tA, .pop tB, .dec tB, .enc tB]

theorem nested_types_no_entry_points_witness :
    Ev.dec tB ∈ trFix6 ∧ Ev.enc tB ∈ trFix6 ∧ Ev.mar tB ∉ trFix6 ∧ Ev.unmar tB ∉ trFix6 :=
  have h : runLoop emFix 3 (applyOps newGenerator [RegOp.top tA]) = (trFix6, .done gfFix) := by
    decide
  (nested_types_no_entry_points [RegOp.top tA] emFix 3 gfFix trFix6 h tB).2.2
    (by decide) (by decide)

/-! ### Error propagation (C9) -/

/-- The trace of a failing run ends exactly at the first failing collaborator
call, whose error value is the one returned. -/
theorem runLoop_fail_shape {ε : Type} (em : Emitters ε) :
    ∀ (fuel : Nat) (g : GenState) (tr : List Ev) (e : ε),
      runLoop em fuel g = (tr, .fail e) →
      ∃ tr0 t,
        ((em.dec t = .error e ∧ tr = tr0 ++ [.pop t, .dec t]) ∨
         (∃ dch, em.dec t = .ok dch ∧ em.enc t = .error e ∧
           tr = tr0 ++ [.pop t, .dec t, .enc t]) ∨
         (∃ dch ech, em.dec t = .ok dch ∧ em.enc t = .ok ech ∧ em.mar t = .error e ∧
           tr = tr0 ++ [.pop t, .dec t, .enc t, .mar t]) ∨
         (∃ dch ech mch, em.dec t = .ok dch ∧ em.enc t = .ok ech ∧ em.mar t = .ok mch ∧
           em.unmar t = .error e ∧ tr = tr0 ++ [.pop t, .dec t, .enc t, .mar t, .unmar t])) := by
  intro fuel
  induction fuel with
  | zero =>
    intro g tr e h
    simp only [runLoop] at h
    exact absurd (congrArg Prod.snd h) (by simp)
  | succ fuel ih =>
    intro g tr e h
    rcases hstep : runStep em g with _ | ⟨tr1, e1⟩ | ⟨tr1, g1⟩ <;> simp only [runLoop, hstep] at h
    · exact absurd (congrArg Prod.snd h) (by simp)
    · have htr : tr = tr1 := (congrArg Prod.fst h).symm
      have he : e1 = e := by simpa using congrArg Prod.snd h
      subst htr
      subst he
      rcases runStep_fail_inv hstep with ⟨rest, t, _, hcases⟩
      refine ⟨[], t, ?_⟩
      rcases hcases with ⟨h1, h2⟩ | ⟨dch, h1, h2, h3⟩ | ⟨dch, ech, h1, h2, _, h3, h4⟩ |
        ⟨dch, ech, mch, h1, h2, _, h3, h4, h5⟩
      · exact Or.inl ⟨h1, by simpa using h2⟩
      · exact Or.inr (Or.inl ⟨dch, h1, h2, by simpa using h3⟩)
      · exact Or.inr (Or.inr (Or.inl ⟨dch, ech, h1, h2, h3, by simpa using h4⟩))
      · exact Or.inr (Or.inr (Or.inr ⟨dch, ech, mch, h1, h2, h3, h4, by simpa using h5⟩))
    · rcases hrec : runLoop em fuel g1 with ⟨tr2, r⟩
      rw [hrec] at h
      have htr : tr = tr1 ++ tr2 := (congrArg Prod.fst h).symm
      have hres : r = .fail e := by simpa using congrArg Prod.snd h
      subst htr
      subst hres
      rcases ih g1 tr2 e hrec with ⟨tr0, t, hcases⟩
      refine ⟨tr1 ++ tr0, t, ?_⟩
      rcases hcases with ⟨h1, h2⟩ | ⟨dch, h1, h2, h3⟩ | ⟨dch, ech, h1, h2, h3, h4⟩ |
        ⟨dch, ech, mch, h1, h2, h3, h4, h5⟩
      · exact Or.inl ⟨h1, by rw [h2, List.append_assoc]⟩
      · exact Or.inr (Or.inl ⟨dch, h1, h2, by rw [h3, List.append_assoc]⟩)
      · exact Or.inr (Or.inr (Or.inl ⟨dch, ech, h1, h2, h3, by rw [h4, List.append_assoc]⟩))
      · exact Or.inr (Or.inr (Or.inr ⟨dch, ech, mch, h1, h2, h3, h4,
          by rw [h5, List.append_assoc]⟩))

/-- C9: when any emission collaborator fails, the run stops at once: the
event trace ends exactly at the failing call, no later type is popped and
no later collaborator is invoked, the error value of the collaborator is
returned unwrapped, and nothing is printed or written. -/
theorem run_aborts_on_first_error {ε : Type} (em : Emitters ε) (fuel : Nat) (g : GenState)
    (ro : RunOut ε) (e : ε) (hro : runG em fuel g = some ro) (he : ro.errVal = some e) :
    ro.stdoutLines = [] ∧ ro.written = "" ∧
    ∃ tr0 t,
      ((em.dec t = .error e ∧ ro.events = tr0 ++ [.pop t, .dec t]) ∨
       (∃ dch, em.dec t = .ok dch ∧ em.enc t = .error e ∧
         ro.events = tr0 ++ [.pop t, .dec t, .enc t]) ∨
       (∃ dch ech, em.dec t = .ok dch ∧ em.enc t = .ok ech ∧ em.mar t = .error e ∧
         ro.events = tr0 ++ [.pop t, .dec t, .enc t, .mar t]) ∨
       (∃ dch ech mch, em.dec t = .ok dch ∧ em.enc t = .ok ech ∧ em.mar t = .ok mch ∧
         em.unmar t = .error e ∧
         ro.events = tr0 ++ [.pop t, .dec t, .enc t, .mar t, .unmar t])) := by
  rcases hr2 : (runLoop em fuel { g with out := "" }).2 with gf | e0 | gow <;>
    simp only [runG, hr2] at hro
  · cases hro
    simp at he
  · cases hro
    have he0 : e0 = e := by simpa using he
    subst he0
    have hpair : runLoop em fuel { g with out := "" } =
        ((runLoop em fuel { g with out := "" }).1, LoopRes.fail e0) := by
      rw [← hr2]
    rcases runLoop_fail_shape em fuel _ _ e0 hpair with ⟨tr0, t, hcases⟩
    exact ⟨rfl, rfl, tr0, t, hcases⟩
  · exact Option.noConfusion hro

/-- Modelled from the spec: collaborators where the encoder emission for
the nested type `B` fails. -/
def emBad : Emitters String :=
  { dec := fun t => .ok ((if t = tA then [tB] else []), "dec " ++ t.name ++ ";"),
    enc := fun t => if t = tB then .error "boom" else .ok ([], "enc " ++ t.name ++ ";"),
    mar := fun t => .ok ("mar " ++ t.name ++ ";"),
    unmar := fun t => .ok ("unmar " ++ t.name ++ ";") }

def roBad : RunOut String :=
  { events := [.pop tA, .dec tA, .enc tA, .mar tA, .unmar tA, .pop tB, .dec tB, .enc tB],
    stdoutLines := [], written := "", errVal := some "boom" }

theorem run_aborts_on_first_error_witness :
    roBad.stdoutLines = [] ∧ roBad.written = "" ∧
    ∃ tr0 t,
      ((emBad.dec t = .error "boom" ∧ roBad.events = tr0 ++ [.pop t, .dec t]) ∨
       (∃ dch, emBad.dec t = .ok dch ∧ emBad.enc t = .error "boom" ∧
         roBad.events = tr0 ++ [.pop t, .dec t, .enc t]) ∨
       (∃ dch ech, emBad.dec t = .ok dch ∧ emBad.enc t = .ok ech ∧ emBad.mar t = .error "boom" ∧
         roBad.events = tr0 ++ [.pop t, .dec t, .enc t, .mar t]) ∨
       (∃ dch ech mch, emBad.dec t = .ok dch ∧ emBad.enc t = .ok ech ∧ emBad.mar t = .ok mch ∧
         emBad.unmar t = .error "boom" ∧
         roBad.events = tr0 ++ [.pop t, .dec t, .enc t, .mar t, .unmar t])) :=
  run_aborts_on_first_error emBad 5 (applyOps newGenerator [RegOp.top tA]) roBad "boom"
    (by decide) (by decide)

/-! ### Header emission (C1, C2) and identifier conversion (C8) -/

/-- Modelled from the spec: collaborators for a single top-level type
with no nested discoveries. -/
def emOne : Emitters String :=
  { dec := fun t => .ok ([], "dec(" ++ t.name ++ ");"),
    enc := fun t => .ok ([], "enc(" ++ t.name ++ ");"),
    mar := fun t => .ok ("mar(" ++ t.name ++ ");"),
    unmar := fun t => .ok ("unmar(" ++ t.name ++ ");") }

def gOne : GenState := addTop { newGenerator with pkgName := "test", pkgPath := "pkg" } tA

def roOne : RunOut String :=
  { events := [.pop tA, .dec tA, .enc tA, .mar tA, .unmar tA],
    stdoutLines :=
      ["package  test", "", "import (",
       "  jwriter \"github.com/mailru/easyjson/jwriter\"",
       "  jlexer \"github.com/mailru/easyjson/jlexer\"",
       "  json \"encoding/json\"", ")", "",
       "var _ = json.RawMessage\x7b\x7d // suppress unused package warning", ""],
    written := "dec(A);enc(A);mar(A);unmar(A);",
    errVal := none }

/-- C1 at a concrete input: `Run` hands the writer of the caller only the
accumulated body; the header block (package clause, import list,
forced-use marker) goes to standard output and is not prepended to the
written output. -/
theorem run_header_not_in_written_output :
    runG emOne 2 gOne = some roOne ∧
    roOne.written = "dec(A);enc(A);mar(A);unmar(A);" ∧
    roOne.stdoutLines.head? = some "package  test" ∧
    strHasPfx roOne.written "package  test" = false ∧
    roOne.stdoutLines ≠ [] := by
  refine ⟨by decide, rfl, rfl, by decide, by decide⟩

/-- C2 at the failing input: the import lines follow the map iteration
order (here the literal insertion order jwriter, jlexer, json), not the
ascending-by-alias order — the sorted alias slice built by the source is
never used for printing. -/
theorem import_lines_not_sorted_by_alias :
    headerAliases newGenerator = ["jwriter", "jlexer", "json"] ∧
    printHeader { newGenerator with pkgName := "test" } =
      ["package  test", "", "import (",
       "  jwriter \"github.com/mailru/easyjson/jwriter\"",
       "  jlexer \"github.com/mailru/easyjson/jlexer\"",
       "  json \"encoding/json\"", ")", "",
       "var _ = json.RawMessage\x7b\x7d // suppress unused package warning", ""] ∧
    ¬ aliasesAscending newGenerator := by
  refine ⟨by decide, by decide, ?_⟩
  intro h
  unfold aliasesAscending at h
  rw [show headerAliases newGenerator = ["jwriter", "jlexer", "json"] from by decide] at h
  rw [List.pairwise_cons] at h
  exact absurd (h.1 "jlexer" (by decide)) (by decide)

/-- C8: the camelCase → snake_case converter maps the fixtures of the
specification exactly. -/
theorem camelToSnake_fixtures :
    camelToSnake "ID" = "id" ∧ camelToSnake "UserID" = "user_id" ∧
    camelToSnake "HTTPServer" = "http_server" ∧
    camelToSnake "already_snake" = "already_snake" ∧ camelToSnake "" = "" := by
  refine ⟨by decide, by decide, by decide, by decide, by decide⟩
